import Mathlib

/-!
Verification of the `deferred-map` crate: a generational slot map with a
two-phase (handle, then key) insertion protocol, plus a generation-aware
secondary map.  The definitions below are a shallow embedding of the Rust
sources: `src/utils.rs` (key codec), `src/slot.rs` (slot state machine and
the serde deserializer), `src/map.rs` (the primary container) and
`src/secondary.rs` (the secondary map).  Machine integers (`u32`, `u64`,
`usize`) are modelled as `Nat` with explicit reductions `% 2 ^ 32` /
`% 2 ^ 64` at every point where the source performs a cast or wrapping
arithmetic.  `debug_assert!` checks of the source are modelled as explicit
preconditions on the step relation (`HandleOk` below): release builds skip
them, and violating them leads to states the protocol forbids.
-/

namespace DeferredMapModel

/-- Model of `encode_key` from `src/utils.rs`:
`((generation as u64) << 32) | (index as u64)` with `index generation : u32`;
the two fields are disjoint, so the bitwise or is addition. -/
def encode_key (index generation : Nat) : Nat :=
  (generation % 2 ^ 32) * 2 ^ 32 + index % 2 ^ 32

/-- Model of `decode_key` from `src/utils.rs`:
`index = key as u32`, `generation = (key >> 32) as u32`. -/
def decode_key (key : Nat) : Nat × Nat :=
  (key % 2 ^ 32, key / 2 ^ 32 % 2 ^ 32)

/-- Model of `Handle::index` from `src/handle.rs` (lower 32 bits of the raw key).
A `Handle` only wraps the raw `u64` key, so the model passes the raw key around. -/
def handle_index (handle : Nat) : Nat := (decode_key handle).1

/-- Model of `Handle::generation` from `src/handle.rs` (upper 32 bits of the raw key). -/
def handle_generation (handle : Nat) : Nat := (decode_key handle).2

/-- Model of the union `SlotUnion` from `src/slot.rs`: it holds either a live
value or the free-list link `next_free : u32`. -/
inductive SlotUnion (T : Type) where
  | value : T → SlotUnion T
  | next_free : Nat → SlotUnion T
deriving DecidableEq

/-- Reading the `next_free` field of the union.  The source only performs this
read on slots whose union was last written as `next_free`; reading it while a
value is stored reinterprets bits, which the model renders as the junk value 0. -/
def SlotUnion.get_next_free {T : Type} : SlotUnion T → Nat
  | SlotUnion.next_free n => n
  | SlotUnion.value _ => 0

/-- Model of `Slot` from `src/slot.rs`: the union plus the packed `version : u32`
word (low 2 bits: state, high 30 bits: generation). -/
structure Slot (T : Type) where
  u : SlotUnion T
  version : Nat
deriving DecidableEq

/-- Model of `Slot::state_bits`: `version & 0b11`. -/
def Slot.state_bits {T : Type} (s : Slot T) : Nat := s.version % 4

/-- Model of `Slot::is_vacant`: state bits `0b00`. -/
def Slot.is_vacant {T : Type} (s : Slot T) : Bool := s.state_bits == 0

/-- Model of `Slot::is_reserved`: state bits `0b01`. -/
def Slot.is_reserved {T : Type} (s : Slot T) : Bool := s.state_bits == 1

/-- Model of `Slot::is_occupied`: state bits `0b11`. -/
def Slot.is_occupied {T : Type} (s : Slot T) : Bool := s.state_bits == 3

/-- Model of `Slot::generation`: `version >> 2`. -/
def Slot.generation {T : Type} (s : Slot T) : Nat := s.version / 4

/-- Reading `slot.u.value`.  The source reads it only when the slot is occupied,
in which case the union holds a value; the model returns `none` on the
out-of-protocol bit reinterpretation. -/
def Slot.read_value {T : Type} (s : Slot T) : Option T :=
  match s.u with
  | SlotUnion.value v => some v
  | SlotUnion.next_free _ => none

/-- The sentinel slot placed at index 0 by `DeferredMap::with_capacity`:
`Slot { u: SlotUnion { next_free: 0 }, version: 0 }`. -/
def sentinelSlot (T : Type) : Slot T :=
  { u := SlotUnion.next_free 0, version := 0 }

/-- Model of `DeferredMap` from `src/map.rs`: slot array, free-list head and
element count (`free_head`, `num_elems : u32`). -/
structure DeferredMap (T : Type) where
  slots : List (Slot T)
  free_head : Nat
  num_elems : Nat
deriving DecidableEq

namespace DeferredMap

/-- Model of `DeferredMap::with_capacity` (and hence `new`): a single sentinel
slot at index 0, `free_head = 1`, `num_elems = 0`.  Pre-allocated capacity has
no observable effect and is not modelled. -/
def new (T : Type) : DeferredMap T :=
  { slots := [sentinelSlot T], free_head := 1, num_elems := 0 }

/-- Model of `DeferredMap::allocate_handle`.  If `free_head` is in range, the
vacant slot there is popped off the free list and advanced to reserved
(`version += 1`); otherwise a fresh slot is appended directly in reserved state
with `version = 0b01`.  Returns the raw handle key and the new map. -/
def allocate_handle {T : Type} (m : DeferredMap T) : Nat × DeferredMap T :=
  if h : m.free_head < m.slots.length then
    let slot := m.slots[m.free_head]
    let index := m.free_head
    let fh := slot.u.get_next_free
    let slot1 : Slot T := { u := slot.u, version := (slot.version + 1) % 2 ^ 32 }
    let raw := encode_key index slot1.generation
    (raw, { slots := m.slots.set index slot1, free_head := fh, num_elems := m.num_elems })
  else
    let index := m.slots.length % 2 ^ 32
    let slot1 : Slot T := { u := SlotUnion.next_free 0, version := 1 }
    let raw := encode_key index (1 / 4)
    (raw, { slots := m.slots ++ [slot1], free_head := (index + 1) % 2 ^ 32,
            num_elems := m.num_elems })

/-- Model of `DeferredMap::insert`: writes the value into the handle's slot and
advances reserved to occupied (`version += 2`), incrementing `num_elems`.  The
source indexes with `get_unchecked_mut` after `debug_assert!`s; an
out-of-bounds handle is out of protocol and modelled as a no-op. -/
def insert {T : Type} (m : DeferredMap T) (handle : Nat) (value : T) : DeferredMap T :=
  let index := handle_index handle
  if h : index < m.slots.length then
    let slot := m.slots[index]
    let slot1 : Slot T := { u := SlotUnion.value value, version := (slot.version + 2) % 2 ^ 32 }
    { slots := m.slots.set index slot1, free_head := m.free_head,
      num_elems := (m.num_elems + 1) % 2 ^ 32 }
  else m

/-- Model of `DeferredMap::get`: bounds check, then generation comparison and
occupied check; on success the stored value is read out of the union. -/
def get {T : Type} (m : DeferredMap T) (key : Nat) : Option T :=
  let index := (decode_key key).1
  let generation := (decode_key key).2
  if h : index < m.slots.length then
    let slot := m.slots[index]
    if slot.generation == generation && slot.is_occupied then slot.read_value else none
  else none

/-- Model of `DeferredMap::get_mut`: identical validity logic to `get`; the
model returns the value the mutable reference would point at. -/
def get_mut {T : Type} (m : DeferredMap T) (key : Nat) : Option T :=
  let index := (decode_key key).1
  let generation := (decode_key key).2
  if h : index < m.slots.length then
    let slot := m.slots[index]
    if slot.generation == generation && slot.is_occupied then slot.read_value else none
  else none

/-- Model of `DeferredMap::remove`: on a valid occupied key, takes the value,
pushes the slot onto the free list (`next_free := free_head`, `free_head :=
index`), advances the version with `wrapping_add(1)` (occupied to vacant of the
next generation) and decrements `num_elems` (wrapping `u32` subtraction). -/
def remove {T : Type} (m : DeferredMap T) (key : Nat) : Option T × DeferredMap T :=
  let index := (decode_key key).1
  let generation := (decode_key key).2
  if h : index < m.slots.length then
    let slot := m.slots[index]
    if slot.generation == generation && slot.is_occupied then
      let value := slot.read_value
      let slot1 : Slot T := { u := SlotUnion.next_free m.free_head,
                              version := (slot.version + 1) % 2 ^ 32 }
      (value, { slots := m.slots.set index slot1, free_head := index,
                num_elems := (m.num_elems + (2 ^ 32 - 1)) % 2 ^ 32 })
    else (none, m)
  else (none, m)

/-- Model of `DeferredMap::release_handle`: pushes the reserved slot back onto
the free list and advances the version with `wrapping_add(3)` (reserved to
vacant of the next generation).  `num_elems` is untouched.  The source indexes
with the panicking `[]` after `debug_assert!`s; an out-of-bounds handle is out
of protocol and modelled as a no-op. -/
def release_handle {T : Type} (m : DeferredMap T) (handle : Nat) : DeferredMap T :=
  let index := handle_index handle
  if h : index < m.slots.length then
    let slot := m.slots[index]
    let slot1 : Slot T := { u := SlotUnion.next_free m.free_head,
                            version := (slot.version + 3) % 2 ^ 32 }
    { slots := m.slots.set index slot1, free_head := index, num_elems := m.num_elems }
  else m

/-- Model of `DeferredMap::contains_key`: `get(key).is_some()`. -/
def contains_key {T : Type} (m : DeferredMap T) (key : Nat) : Bool :=
  (m.get key).isSome

/-- Model of `DeferredMap::len`: the `num_elems` counter. -/
def len {T : Type} (m : DeferredMap T) : Nat := m.num_elems

/-- Model of `DeferredMap::clear`: discard all slots, re-add the sentinel,
reset `free_head` and `num_elems`. -/
def clear {T : Type} (_m : DeferredMap T) : DeferredMap T :=
  { slots := [sentinelSlot T], free_head := 1, num_elems := 0 }

end DeferredMap

/-- The conjunction of the `debug_assert!` preconditions that
`DeferredMap::insert` and `DeferredMap::release_handle` place on a handle:
non-sentinel index, in bounds, matching generation, slot in reserved state.
Handles are move-only and produced only by `allocate_handle`, so every
protocol-respecting caller satisfies this. -/
def HandleOk {T : Type} (m : DeferredMap T) (handle : Nat) : Prop :=
  handle_index handle ≠ 0 ∧ handle_index handle < m.slots.length ∧
    (m.slots.getD (handle_index handle) (sentinelSlot T)).generation = handle_generation handle ∧
    (m.slots.getD (handle_index handle) (sentinelSlot T)).is_reserved = true

instance {T : Type} (m : DeferredMap T) (handle : Nat) : Decidable (HandleOk m handle) := by
  unfold HandleOk; infer_instance

/-- One public mutating operation of the primary container.  `insert` and
`release_handle` steps carry the handle-protocol precondition `HandleOk`
(the `debug_assert!`s of the source); `remove` and the lookups accept
arbitrary `u64` keys. -/
inductive Step (T : Type) : DeferredMap T → DeferredMap T → Prop where
  | alloc (m : DeferredMap T) : Step T m (m.allocate_handle).2
  | ins (m : DeferredMap T) (handle : Nat) (v : T) (hok : HandleOk m handle) :
      Step T m (m.insert handle v)
  | rem (m : DeferredMap T) (key : Nat) : Step T m (m.remove key).2
  | rel (m : DeferredMap T) (handle : Nat) (hok : HandleOk m handle) :
      Step T m (m.release_handle handle)
  | clr (m : DeferredMap T) : Step T m m.clear

/-- A container state reachable from `DeferredMap::new` by public operations. -/
def Reachable {T : Type} (m : DeferredMap T) : Prop :=
  Relation.ReflTransGen (Step T) (DeferredMap.new T) m

/-- Model of the internal `Slot` of `src/secondary.rs`: a value together with
the generation it belongs to. -/
structure SecSlot (T : Type) where
  value : T
  generation : Nat
deriving DecidableEq

/-- Model of `SecondaryMap` from `src/secondary.rs`: a sparse array of
optional cells plus the element count (`num_elems : usize`). -/
structure SecondaryMap (T : Type) where
  slots : List (Option (SecSlot T))
  num_elems : Nat
deriving DecidableEq

namespace SecondaryMap

/-- Model of `SecondaryMap::new`: empty backing array, zero elements. -/
def new (T : Type) : SecondaryMap T :=
  { slots := [], num_elems := 0 }

/-- The growth step of `SecondaryMap::insert`:
`self.slots.resize_with(index + 1, || None)` when `index >= self.slots.len()`. -/
def grow {T : Type} (slots : List (Option (SecSlot T))) (index : Nat) :
    List (Option (SecSlot T)) :=
  if slots.length ≤ index then slots ++ List.replicate (index + 1 - slots.length) none
  else slots

/-- Model of `SecondaryMap::insert`: grow the backing array to cover the index,
then three-way compare the key's generation with the stored cell's generation:
equal replaces and returns the old value; a strictly greater key overwrites
the cell and returns `None`; a strictly lesser key is ignored.  An empty cell
is filled unconditionally and `num_elems` is incremented (`usize` wrap). -/
def insert {T : Type} (m : SecondaryMap T) (key : Nat) (value : T) :
    Option T × SecondaryMap T :=
  let index := (decode_key key).1
  let generation := (decode_key key).2
  let slots := grow m.slots index
  match slots.getD index none with
  | some slot =>
      if slot.generation = generation then
        (some slot.value,
         { slots := slots.set index (some { value := value, generation := slot.generation }),
           num_elems := m.num_elems })
      else if slot.generation < generation then
        (none,
         { slots := slots.set index (some { value := value, generation := generation }),
           num_elems := m.num_elems })
      else
        (none, { slots := slots, num_elems := m.num_elems })
  | none =>
      (none,
       { slots := slots.set index (some { value := value, generation := generation }),
         num_elems := (m.num_elems + 1) % 2 ^ 64 })

/-- Model of `SecondaryMap::get`: bounds check, then the cell must be present
with exactly the key's generation. -/
def get {T : Type} (m : SecondaryMap T) (key : Nat) : Option T :=
  let index := (decode_key key).1
  let generation := (decode_key key).2
  if index < m.slots.length then
    match m.slots.getD index none with
    | some slot => if slot.generation = generation then some slot.value else none
    | none => none
  else none

/-- Model of `SecondaryMap::remove`: removes the cell only when both index and
generation match, decrementing `num_elems`. -/
def remove {T : Type} (m : SecondaryMap T) (key : Nat) : Option T × SecondaryMap T :=
  let index := (decode_key key).1
  let generation := (decode_key key).2
  if index < m.slots.length then
    match m.slots.getD index none with
    | some slot =>
        if slot.generation = generation then
          (some slot.value,
           { slots := m.slots.set index none,
             num_elems := (m.num_elems + (2 ^ 64 - 1)) % 2 ^ 64 })
        else (none, m)
    | none => (none, m)
  else (none, m)

/-- Model of `SecondaryMap::len`: the `num_elems` counter. -/
def len {T : Type} (m : SecondaryMap T) : Nat := m.num_elems

end SecondaryMap

/-- Model of the serde helper enum `SlotInnerOwned` of the `Deserialize`
implementation in `src/slot.rs`: the serialized payload shape. -/
inductive SlotInnerOwned (T : Type) where
  | occupied : T → SlotInnerOwned T
  | vacant : Nat → SlotInnerOwned T
  | reserved : SlotInnerOwned T
deriving DecidableEq

/-- Model of the serde helper struct `SlotHelper` of `src/slot.rs`: the
deserialized version word plus the payload. -/
structure SlotHelper (T : Type) where
  version : Nat
  inner : SlotInnerOwned T
deriving DecidableEq

/-- Model of `impl Deserialize for Slot` from `src/slot.rs`: after decoding the
helper, the state tag `version & 0b11` must agree with the payload shape
(`Occupied` with `0b11`, `Vacant` with `0b00`, `Reserved` with `0b01`),
otherwise the whole deserialization fails with a custom error. -/
def deserializeSlot {T : Type} (helper : SlotHelper T) : Except String (Slot T) :=
  let state_bits := helper.version % 4
  let ok : Bool :=
    match helper.inner, state_bits with
    | SlotInnerOwned.occupied _, 3 => true
    | SlotInnerOwned.vacant _, 0 => true
    | SlotInnerOwned.reserved, 1 => true
    | _, _ => false
  if ok then
    let u : SlotUnion T :=
      match helper.inner with
      | SlotInnerOwned.occupied v => SlotUnion.value v
      | SlotInnerOwned.vacant n => SlotUnion.next_free n
      | SlotInnerOwned.reserved => SlotUnion.next_free 0
    Except.ok { u := u, version := helper.version }
  else Except.error "Slot version and content mismatch"

/-- Number of slots currently in occupied state. -/
def occupiedCount {T : Type} (slots : List (Slot T)) : Nat :=
  slots.countP (fun s => s.is_occupied)

/-- The free list as a chain: starting from pointer `p`, the listed indices are
visited in order through the `next_free` links of vacant non-sentinel slots,
and the final link points one past the end of the slot array (or further). -/
def FreeChain {T : Type} (slots : List (Slot T)) : Nat → List Nat → Prop
  | p, [] => slots.length ≤ p
  | p, i :: rest =>
      p = i ∧ 1 ≤ i ∧ i < slots.length ∧
      (slots.getD i (sentinelSlot T)).is_vacant = true ∧
      FreeChain slots (slots.getD i (sentinelSlot T)).u.get_next_free rest

/-- The structural invariant of `DeferredMap`, maintained by every public
operation: the sentinel keeps version 0, stored versions are 32-bit, the state
bits never take the invalid value `0b10`, occupied slots hold values in their
union, `num_elems` counts the occupied slots, and the free list is a duplicate
free chain through exactly the vacant non-sentinel slots. -/
structure Inv {T : Type} (m : DeferredMap T) : Prop where
  sentinel : (m.slots.getD 0 (sentinelSlot T)).version = 0
  len_pos : 0 < m.slots.length
  versions : ∀ i : Nat, (m.slots.getD i (sentinelSlot T)).version < 2 ^ 32
  no_invalid : ∀ i : Nat, (m.slots.getD i (sentinelSlot T)).state_bits ≠ 2
  occ_val : ∀ i : Nat, (m.slots.getD i (sentinelSlot T)).is_occupied = true →
      ((m.slots.getD i (sentinelSlot T)).read_value).isSome = true
  count : m.num_elems = occupiedCount m.slots
  free : ∃ L : List Nat, FreeChain m.slots m.free_head L ∧ L.Nodup ∧
      ∀ j : Nat, 1 ≤ j → j < m.slots.length →
        (m.slots.getD j (sentinelSlot T)).is_vacant = true → j ∈ L

/-- A key is valid for the container: index in bounds, stored generation equal
to the key's generation, slot occupied.  This is the success condition of
`get` / `get_mut` / `contains_key` / `remove`. -/
def KeyValid {T : Type} (m : DeferredMap T) (key : Nat) : Prop :=
  (decode_key key).1 < m.slots.length ∧
  (m.slots.getD (decode_key key).1 (sentinelSlot T)).generation = (decode_key key).2 ∧
  (m.slots.getD (decode_key key).1 (sentinelSlot T)).is_occupied = true

instance {T : Type} (m : DeferredMap T) (key : Nat) : Decidable (KeyValid m key) := by
  unfold KeyValid; infer_instance

/-- One mutating public operation of the primary container, as trace data. -/
inductive Op (T : Type) where
  | alloc : Op T
  | ins : Nat → T → Op T
  | rem : Nat → Op T
  | rel : Nat → Op T
  | clr : Op T

/-- Execute one operation. -/
def exec {T : Type} (m : DeferredMap T) : Op T → DeferredMap T
  | Op.alloc => (m.allocate_handle).2
  | Op.ins h v => m.insert h v
  | Op.rem k => (m.remove k).2
  | Op.rel h => m.release_handle h
  | Op.clr => m.clear

/-- Execute a sequence of operations from left to right. -/
def execList {T : Type} (m : DeferredMap T) (ops : List (Op T)) : DeferredMap T :=
  ops.foldl exec m

/-- The handle-protocol precondition of an operation in a given state
(`debug_assert!`s of `insert` / `release_handle`; other operations accept
anything). -/
def OpOk {T : Type} (m : DeferredMap T) : Op T → Prop
  | Op.ins h _ => HandleOk m h
  | Op.rel h => HandleOk m h
  | _ => True

/-- A protocol-respecting operation sequence from a given state. -/
def ValidOps {T : Type} (m : DeferredMap T) : List (Op T) → Prop
  | [] => True
  | op :: rest => OpOk m op ∧ ValidOps (exec m op) rest

/-- Whether the operation is `clear`. -/
def Op.is_clear {T : Type} : Op T → Bool
  | Op.clr => true
  | _ => false

/-- Whether the operation is a `remove` or `release_handle` aimed at slot
`idx` (the only operations that can advance `idx`'s generation). -/
def Op.touches {T : Type} (idx : Nat) : Op T → Bool
  | Op.rem k => (decode_key k).1 == idx
  | Op.rel h => (decode_key h).1 == idx
  | _ => false

/-! Helper lemmas about the codec and list operations. -/

theorem handle_index_encode (i g : Nat) : handle_index (encode_key i g) = i % 2 ^ 32 := by
  unfold handle_index decode_key encode_key
  omega

theorem handle_generation_encode (i g : Nat) :
    handle_generation (encode_key i g) = g % 2 ^ 32 := by
  unfold handle_generation decode_key encode_key
  omega

/-- C8: for all 32-bit index and generation values,
`decode_key (encode_key index generation) = (index, generation)`, and every
64-bit key re-encodes to itself from its decoded fields, so the codec is a
stateless bijection between `u64` keys and pairs of disjoint 32-bit fields. -/
theorem C8_codec_round_trip_bijection :
    (∀ index generation : Nat, index < 2 ^ 32 → generation < 2 ^ 32 →
      decode_key (encode_key index generation) = (index, generation)) ∧
    (∀ key : Nat, key < 2 ^ 64 →
      encode_key (decode_key key).1 (decode_key key).2 = key) := by
  constructor
  · intro i g hi hg
    unfold decode_key encode_key
    refine Prod.ext ?_ ?_ <;> simp <;> omega
  · intro k hk
    unfold decode_key encode_key
    simp
    omega

/-- Closed witness for `C8_codec_round_trip_bijection` at concrete inputs. -/
theorem C8_codec_round_trip_bijection_witness :
    decode_key (encode_key 7 5) = (7, 5) ∧
    encode_key (decode_key 12345678901).1 (decode_key 12345678901).2 = 12345678901 :=
  ⟨C8_codec_round_trip_bijection.1 7 5 (by decide) (by decide),
   C8_codec_round_trip_bijection.2 12345678901 (by decide)⟩

/-- C9: deserialization of a slot succeeds exactly when the state tag in the
version word agrees with the shape of the serialized payload (occupied tag
`0b11` with a value, vacant tag `0b00` with a free-list link, reserved tag
`0b01` with no payload); every mismatched combination makes the whole
deserialization fail with an error. -/
theorem C9_slot_deserialize_validates_tag (T : Type) (helper : SlotHelper T) :
    (deserializeSlot helper).isOk = true ↔
      ((∃ v, helper.inner = SlotInnerOwned.occupied v) ∧ helper.version % 4 = 3) ∨
      ((∃ n, helper.inner = SlotInnerOwned.vacant n) ∧ helper.version % 4 = 0) ∨
      (helper.inner = SlotInnerOwned.reserved ∧ helper.version % 4 = 1) := by
  obtain ⟨ver, inner⟩ := helper
  have h4 : ver % 4 = 0 ∨ ver % 4 = 1 ∨ ver % 4 = 2 ∨ ver % 4 = 3 := by omega
  cases inner <;> rcases h4 with h | h | h | h <;>
    simp [deserializeSlot, h, Except.isOk, Except.toBool]

/-! Helper lemmas about the secondary map's growth step. -/

theorem SecondaryMap.getD_grow {T : Type} (slots : List (Option (SecSlot T))) (index : Nat) :
    (SecondaryMap.grow slots index).getD index none = slots.getD index none := by
  unfold SecondaryMap.grow
  split
  · rename_i h
    rw [List.getD_eq_getElem?_getD, List.getElem?_append_right h, List.getElem?_replicate]
    rw [List.getD_eq_getElem?_getD, List.getElem?_eq_none h]
    have : index - slots.length < index + 1 - slots.length := by omega
    simp [this]
  · rfl

theorem SecondaryMap.length_grow {T : Type} (slots : List (Option (SecSlot T))) (index : Nat) :
    (SecondaryMap.grow slots index).length = max slots.length (index + 1) := by
  unfold SecondaryMap.grow
  split <;> rename_i h <;> simp <;> omega

theorem SecondaryMap.index_lt_length_grow {T : Type} (slots : List (Option (SecSlot T)))
    (index : Nat) : index < (SecondaryMap.grow slots index).length := by
  rw [SecondaryMap.length_grow]
  omega

theorem getD_set_lt {A : Type} (l : List A) (i : Nat) (x d : A) (h : i < l.length) :
    (l.set i x).getD i d = x := by
  rw [List.getD_eq_getElem?_getD, List.getElem?_set_eq_of_lt x h]
  rfl

theorem SecondaryMap.get_after_store {T : Type} (slots : List (Option (SecSlot T)))
    (num : Nat) (key : Nat) (v : T) (g : Nat)
    (hidx : (decode_key key).1 < slots.length) (hgen : g = (decode_key key).2) :
    SecondaryMap.get
      { slots := slots.set (decode_key key).1 (some { value := v, generation := g }),
        num_elems := num } key = some v := by
  simp only [SecondaryMap.get]
  rw [if_pos (by simpa using hidx)]
  simp only [getD_set_lt _ _ _ _ hidx]
  simp [hgen]

set_option maxHeartbeats 1000000 in
/-- C2: `SecondaryMap::insert` performs a three-way comparison of the key's
generation against the stored cell's generation: equal replaces the value and
returns the old one, strictly greater overwrites the cell with the new value
and generation and returns `None`, strictly lesser changes nothing and returns
`None`.  Moreover the concrete generation law holds: after inserting `v1` at
(idx 5, gen 1) and `v2` at (idx 5, gen 2), the gen-1 key reads `None` and the
gen-2 key reads `v2`, and a later insert of `v3` at gen 1 is a no-op. -/
theorem C2_secondary_insert_generation_law (T : Type) :
    (∀ (m : SecondaryMap T) (key : Nat) (v : T) (s : SecSlot T),
      m.slots.getD (decode_key key).1 none = some s →
      (s.generation = (decode_key key).2 →
        (m.insert key v).1 = some s.value ∧
        (m.insert key v).2.slots.getD (decode_key key).1 none =
          some { value := v, generation := s.generation } ∧
        (m.insert key v).2.get key = some v) ∧
      (s.generation < (decode_key key).2 →
        (m.insert key v).1 = none ∧
        (m.insert key v).2.slots.getD (decode_key key).1 none =
          some { value := v, generation := (decode_key key).2 } ∧
        (m.insert key v).2.get key = some v) ∧
      ((decode_key key).2 < s.generation →
        (m.insert key v).1 = none ∧
        (m.insert key v).2.slots.getD (decode_key key).1 none = some s ∧
        (m.insert key v).2.num_elems = m.num_elems)) ∧
    (∀ (v1 v2 v3 : T),
      let s2 := (((SecondaryMap.new T).insert (encode_key 5 1) v1).2.insert
        (encode_key 5 2) v2).2
      let r3 := s2.insert (encode_key 5 1) v3
      s2.get (encode_key 5 1) = none ∧ s2.get (encode_key 5 2) = some v2 ∧
      r3.1 = none ∧ r3.2 = s2 ∧ r3.2.get (encode_key 5 2) = some v2) := by
  constructor
  · intro m key v s hs
    have hidx : (decode_key key).1 < (SecondaryMap.grow m.slots (decode_key key).1).length :=
      SecondaryMap.index_lt_length_grow m.slots (decode_key key).1
    have hs2 : (SecondaryMap.grow m.slots (decode_key key).1).getD (decode_key key).1 none =
        some s := by
      rw [SecondaryMap.getD_grow, hs]
    refine ⟨?_, ?_, ?_⟩ <;> intro hcmp <;> simp only [SecondaryMap.insert, hs2]
    · rw [if_pos hcmp]
      exact ⟨rfl, getD_set_lt _ _ _ _ hidx,
        SecondaryMap.get_after_store _ _ _ _ _ hidx hcmp⟩
    · rw [if_neg (by omega), if_pos hcmp]
      exact ⟨rfl, getD_set_lt _ _ _ _ hidx,
        SecondaryMap.get_after_store _ _ _ _ _ hidx rfl⟩
    · rw [if_neg (by omega), if_neg (by omega)]
      exact ⟨rfl, hs2, rfl⟩
  · intro v1 v2 v3
    exact ⟨rfl, rfl, rfl, rfl, rfl⟩

/-- Closed witness for `C2_secondary_insert_generation_law`: the
equal-generation branch applied to a concrete one-cell map. -/
theorem C2_secondary_insert_generation_law_witness :
    (({ slots := [some { value := 9, generation := 1 }], num_elems := 1 } :
        SecondaryMap Nat).insert (encode_key 0 1) 4).1 = some 9 :=
  (((C2_secondary_insert_generation_law Nat).1
    { slots := [some { value := 9, generation := 1 }], num_elems := 1 }
    (encode_key 0 1) 4 { value := 9, generation := 1 } (by decide)).1 (by decide)).1

/-- C10: inserting under a key whose index has no stored cell fills the cell
with the key's value and generation unconditionally, with no generation
comparison at all (in particular a generation-0 key creates a live entry),
returns `None`, and increments `len()` by exactly one; an insert that hits an
existing cell (replace, overwrite or reject) leaves `len()` unchanged. -/
theorem C10_secondary_insert_empty_cell (T : Type) :
    (∀ (m : SecondaryMap T) (key : Nat) (v : T),
      m.slots.getD (decode_key key).1 none = none →
      (m.insert key v).1 = none ∧
      (m.insert key v).2.slots.getD (decode_key key).1 none =
        some { value := v, generation := (decode_key key).2 } ∧
      (m.insert key v).2.get key = some v ∧
      (m.num_elems + 1 < 2 ^ 64 → (m.insert key v).2.len = m.len + 1)) ∧
    (∀ (m : SecondaryMap T) (key : Nat) (v : T) (s : SecSlot T),
      m.slots.getD (decode_key key).1 none = some s →
      (m.insert key v).2.len = m.len) := by
  constructor
  · intro m key v hs
    have hidx : (decode_key key).1 < (SecondaryMap.grow m.slots (decode_key key).1).length :=
      SecondaryMap.index_lt_length_grow m.slots (decode_key key).1
    have hs2 : (SecondaryMap.grow m.slots (decode_key key).1).getD (decode_key key).1 none =
        none := by
      rw [SecondaryMap.getD_grow, hs]
    simp only [SecondaryMap.insert, hs2]
    refine ⟨trivial, getD_set_lt _ _ _ _ hidx,
      SecondaryMap.get_after_store _ _ _ _ _ hidx rfl, ?_⟩
    intro hlt
    show (m.num_elems + 1) % 2 ^ 64 = m.num_elems + 1
    exact Nat.mod_eq_of_lt hlt
  · intro m key v s hs
    have hs2 : (SecondaryMap.grow m.slots (decode_key key).1).getD (decode_key key).1 none =
        some s := by
      rw [SecondaryMap.getD_grow, hs]
    simp only [SecondaryMap.insert, SecondaryMap.len, hs2]
    split
    · rfl
    · split <;> rfl

/-- Closed witness for `C10_secondary_insert_empty_cell`: a generation-0 key
inserted into the empty map creates a live entry and bumps the length. -/
theorem C10_secondary_insert_empty_cell_witness :
    ((SecondaryMap.new Nat).insert (encode_key 7 0) 3).1 = none ∧
    ((SecondaryMap.new Nat).insert (encode_key 7 0) 3).2.get (encode_key 7 0) = some 3 ∧
    ((SecondaryMap.new Nat).insert (encode_key 7 0) 3).2.len = (SecondaryMap.new Nat).len + 1 := by
  have h := (C10_secondary_insert_empty_cell Nat).1 (SecondaryMap.new Nat)
    (encode_key 7 0) 3 (by decide)
  exact ⟨h.1, h.2.2.1, h.2.2.2 (by decide)⟩

/-! Step-characterisation lemmas for the primary container's operations. -/

theorem DeferredMap.allocate_handle_reuse {T : Type} (m : DeferredMap T)
    (hlt : m.free_head < m.slots.length) :
    m.allocate_handle =
      (encode_key m.free_head (((m.slots.get ⟨m.free_head, hlt⟩).version + 1) % 2 ^ 32 / 4),
       { slots := m.slots.set m.free_head
           { u := (m.slots.get ⟨m.free_head, hlt⟩).u,
             version := ((m.slots.get ⟨m.free_head, hlt⟩).version + 1) % 2 ^ 32 },
         free_head := (m.slots.get ⟨m.free_head, hlt⟩).u.get_next_free,
         num_elems := m.num_elems }) := by
  simp only [DeferredMap.allocate_handle, Slot.generation]
  rw [dif_pos hlt]
  rfl

theorem DeferredMap.allocate_handle_append {T : Type} (m : DeferredMap T)
    (hge : m.slots.length ≤ m.free_head) :
    m.allocate_handle =
      (encode_key (m.slots.length % 2 ^ 32) 0,
       { slots := m.slots ++ [{ u := SlotUnion.next_free 0, version := 1 }],
         free_head := (m.slots.length % 2 ^ 32 + 1) % 2 ^ 32,
         num_elems := m.num_elems }) := by
  simp only [DeferredMap.allocate_handle]
  rw [dif_neg (by omega)]

theorem DeferredMap.insert_eq {T : Type} (m : DeferredMap T) (handle : Nat) (value : T)
    (hlt : handle_index handle < m.slots.length) :
    m.insert handle value =
      { slots := m.slots.set (handle_index handle)
          { u := SlotUnion.value value,
            version := ((m.slots.get ⟨handle_index handle, hlt⟩).version + 2) % 2 ^ 32 },
        free_head := m.free_head,
        num_elems := (m.num_elems + 1) % 2 ^ 32 } := by
  simp only [DeferredMap.insert]
  rw [dif_pos hlt]
  rfl

theorem DeferredMap.release_handle_eq {T : Type} (m : DeferredMap T) (handle : Nat)
    (hlt : handle_index handle < m.slots.length) :
    m.release_handle handle =
      { slots := m.slots.set (handle_index handle)
          { u := SlotUnion.next_free m.free_head,
            version := ((m.slots.get ⟨handle_index handle, hlt⟩).version + 3) % 2 ^ 32 },
        free_head := handle_index handle,
        num_elems := m.num_elems } := by
  simp only [DeferredMap.release_handle]
  rw [dif_pos hlt]
  rfl

theorem DeferredMap.remove_hit {T : Type} (m : DeferredMap T) (key : Nat)
    (hrem : (m.remove key).1.isSome = true) :
    ∃ hlt : (decode_key key).1 < m.slots.length,
      (m.slots.get ⟨(decode_key key).1, hlt⟩).generation = (decode_key key).2 ∧
      (m.slots.get ⟨(decode_key key).1, hlt⟩).is_occupied = true ∧
      (m.remove key).1 = (m.slots.get ⟨(decode_key key).1, hlt⟩).read_value ∧
      (m.remove key).2 =
        { slots := m.slots.set (decode_key key).1
            { u := SlotUnion.next_free m.free_head,
              version := ((m.slots.get ⟨(decode_key key).1, hlt⟩).version + 1) % 2 ^ 32 },
          free_head := (decode_key key).1,
          num_elems := (m.num_elems + (2 ^ 32 - 1)) % 2 ^ 32 } := by
  simp only [DeferredMap.remove] at hrem ⊢
  split at hrem
  · rename_i hlt
    refine ⟨hlt, ?_⟩
    split at hrem
    · rename_i hc
      rw [Bool.and_eq_true, beq_iff_eq] at hc
      refine ⟨hc.1, hc.2, ?_, ?_⟩
      · rw [dif_pos hlt, if_pos (by rw [Bool.and_eq_true, beq_iff_eq]; exact hc)]
        rfl
      · rw [dif_pos hlt, if_pos (by rw [Bool.and_eq_true, beq_iff_eq]; exact hc)]
        rfl
    · simp at hrem
  · simp at hrem

theorem DeferredMap.remove_miss {T : Type} (m : DeferredMap T) (key : Nat)
    (hmiss : ¬ ((decode_key key).1 < m.slots.length ∧
      (m.slots.getD (decode_key key).1 (sentinelSlot T)).generation = (decode_key key).2 ∧
      (m.slots.getD (decode_key key).1 (sentinelSlot T)).is_occupied = true)) :
    m.remove key = (none, m) := by
  simp only [DeferredMap.remove]
  by_cases hlt : (decode_key key).1 < m.slots.length
  · rw [dif_pos hlt]
    rw [List.getD_eq_getElem?_getD, List.getElem?_eq_getElem hlt] at hmiss
    simp only [Option.getD_some] at hmiss
    rw [if_neg]
    rw [Bool.and_eq_true, beq_iff_eq]
    intro hc
    exact hmiss ⟨hlt, hc.1, hc.2⟩
  · rw [dif_neg hlt]

/-- C6: free-slot recycling is LIFO: after a successful `remove` (or a
`release_handle`), the vacated index is the very next one handed out by
`allocate_handle`; and concretely, allocating indices 1, 2, 3, releasing them
in that order and allocating three more yields indices 3, 2, 1. -/
theorem C6_lifo_reuse (T : Type) :
    (∀ (m : DeferredMap T) (key : Nat),
      (m.remove key).1.isSome = true →
        handle_index ((m.remove key).2.allocate_handle).1 = (decode_key key).1) ∧
    (∀ (m : DeferredMap T) (handle : Nat), HandleOk m handle →
      handle_index ((m.release_handle handle).allocate_handle).1 = handle_index handle) ∧
    (let s0 := DeferredMap.new Nat
     let aA := s0.allocate_handle
     let aB := aA.2.allocate_handle
     let aC := aB.2.allocate_handle
     let sR := ((aC.2.release_handle aA.1).release_handle aB.1).release_handle aC.1
     let t1 := sR.allocate_handle
     let t2 := t1.2.allocate_handle
     let t3 := t2.2.allocate_handle
     handle_index aA.1 = 1 ∧ handle_index aB.1 = 2 ∧ handle_index aC.1 = 3 ∧
     handle_index t1.1 = 3 ∧ handle_index t2.1 = 2 ∧ handle_index t3.1 = 1) := by
  refine ⟨?_, ?_, by decide⟩
  · intro m key hrem
    obtain ⟨hlt, hgen, hocc, hval, hmap⟩ := DeferredMap.remove_hit m key hrem
    rw [hmap]
    rw [DeferredMap.allocate_handle_reuse _ (by simpa using hlt)]
    rw [handle_index_encode]
    dsimp only
    have : (decode_key key).1 < 2 ^ 32 := by
      simp only [decode_key]
      omega
    omega
  · intro m handle hok
    obtain ⟨hnz, hlt, hgen, hres⟩ := hok
    rw [DeferredMap.release_handle_eq _ _ hlt]
    rw [DeferredMap.allocate_handle_reuse _ (by simpa using hlt)]
    rw [handle_index_encode]
    dsimp only
    have : handle_index handle < 2 ^ 32 := by
      simp only [handle_index, decode_key]
      omega
    omega

/-- Closed witness for `C6_lifo_reuse`: removing the only element of a concrete
one-element map makes the next allocation reuse its index. -/
theorem C6_lifo_reuse_witness :
    handle_index ((((DeferredMap.new Nat).allocate_handle.2.insert
      (encode_key 1 0) 42).remove (encode_key 1 0)).2.allocate_handle).1 = 1 := by
  have h := (C6_lifo_reuse Nat).1
    ((DeferredMap.new Nat).allocate_handle.2.insert (encode_key 1 0) 42)
    (encode_key 1 0) (by decide)
  simpa using h

/-! List and chain bookkeeping lemmas for the invariant proofs. -/

theorem getD_set_ne {A : Type} (l : List A) (i j : Nat) (x d : A) (h : i ≠ j) :
    (l.set i x).getD j d = l.getD j d := by
  rw [List.getD_eq_getElem?_getD, List.getElem?_set_ne h, ← List.getD_eq_getElem?_getD]

theorem getD_oob {A : Type} (l : List A) (i : Nat) (d : A) (h : l.length ≤ i) :
    l.getD i d = d := by
  rw [List.getD_eq_getElem?_getD, List.getElem?_eq_none h]
  rfl

theorem getD_append_left {A : Type} (l r : List A) (i : Nat) (d : A) (h : i < l.length) :
    (l ++ r).getD i d = l.getD i d := by
  rw [List.getD_eq_getElem?_getD, List.getElem?_append, if_pos h, ← List.getD_eq_getElem?_getD]

theorem getD_append_len {A : Type} (l : List A) (s d : A) :
    (l ++ [s]).getD l.length d = s := by
  rw [List.getD_eq_getElem?_getD, List.getElem?_append_right (Nat.le_refl _)]
  simp

theorem getD_append_gt {A : Type} (l : List A) (s d : A) (i : Nat) (h : l.length < i) :
    (l ++ [s]).getD i d = d := by
  apply getD_oob
  simp
  omega

theorem countP_set {A : Type} (p : A → Bool) (l : List A) (i : Nat) (x d : A)
    (h : i < l.length) :
    (l.set i x).countP p + (if p (l.getD i d) then 1 else 0)
      = l.countP p + (if p x then 1 else 0) := by
  induction l generalizing i with
  | nil => simp at h
  | cons a t ih =>
    cases i with
    | zero =>
      simp [List.countP_cons, List.getD]
      omega
    | succ n =>
      simp only [List.set_cons_succ, List.countP_cons, List.getD_cons_succ]
      have := ih n (by simpa using h)
      omega

theorem FreeChain_mem {T : Type} {slots : List (Slot T)} {p : Nat} {L : List Nat}
    (hc : FreeChain slots p L) :
    ∀ j ∈ L, 1 ≤ j ∧ j < slots.length ∧
      (slots.getD j (sentinelSlot T)).is_vacant = true := by
  induction L generalizing p with
  | nil => intro j hj; simp at hj
  | cons i rest ih =>
    obtain ⟨hp, h1, hlen, hvac, hrest⟩ := hc
    intro j hj
    rcases List.mem_cons.1 hj with hji | hjr
    · subst hji; exact ⟨h1, hlen, hvac⟩
    · exact ih hrest j hjr

theorem FreeChain_set_notMem {T : Type} {slots : List (Slot T)} {p : Nat} {L : List Nat}
    (hc : FreeChain slots p L) (i : Nat) (x : Slot T) (hi : i ∉ L) :
    FreeChain (slots.set i x) p L := by
  induction L generalizing p with
  | nil => simpa [FreeChain] using hc
  | cons j rest ih =>
    obtain ⟨hp, h1, hlen, hvac, hrest⟩ := hc
    have hij : i ≠ j := fun e => hi (e ▸ List.mem_cons_self j rest)
    refine ⟨hp, h1, by simpa using hlen, ?_, ?_⟩
    · rw [getD_set_ne _ _ _ _ _ hij]; exact hvac
    · rw [getD_set_ne _ _ _ _ _ hij]
      exact ih hrest (fun hm => hi (List.mem_cons_of_mem j hm))

theorem FreeChain_head_lt {T : Type} {slots : List (Slot T)} {p : Nat} {L : List Nat}
    (hc : FreeChain slots p L) (hlt : p < slots.length) :
    ∃ rest, L = p :: rest := by
  cases L with
  | nil => simp only [FreeChain] at hc; omega
  | cons i rest =>
    obtain ⟨hp, _, _, _, _⟩ := hc
    exact ⟨rest, by rw [hp]⟩

theorem occupiedCount_lt_length {T : Type} (slots : List (Slot T))
    (h0 : 0 < slots.length) (hs : (slots.getD 0 (sentinelSlot T)).is_occupied = false) :
    occupiedCount slots < slots.length := by
  cases slots with
  | nil => simp at h0
  | cons a t =>
    simp only [List.getD_cons_zero] at hs
    simp [occupiedCount, List.countP_cons, hs]
    have : List.countP (fun s : Slot T => s.is_occupied) t ≤ t.length :=
      List.countP_le_length _
    omega

theorem occupiedCount_pos {T : Type} (slots : List (Slot T)) (i : Nat)
    (hi : i < slots.length) (ho : (slots.getD i (sentinelSlot T)).is_occupied = true) :
    0 < occupiedCount slots := by
  rw [occupiedCount, List.countP_pos_iff]
  refine ⟨slots[i], List.getElem_mem hi, ?_⟩
  rw [List.getD_eq_getElem?_getD, List.getElem?_eq_getElem hi] at ho
  exact ho

/-! Slot-state helpers and `getD` versions of the step lemmas. -/

theorem getD_eq_get {A : Type} (l : List A) (i : Nat) (d : A) (h : i < l.length) :
    l.getD i d = l.get ⟨i, h⟩ := by
  rw [List.getD_eq_getElem?_getD, List.getElem?_eq_getElem h]
  rfl

theorem is_vacant_iff {T : Type} (s : Slot T) : s.is_vacant = true ↔ s.version % 4 = 0 := by
  simp [Slot.is_vacant, Slot.state_bits]

theorem is_reserved_iff {T : Type} (s : Slot T) : s.is_reserved = true ↔ s.version % 4 = 1 := by
  simp [Slot.is_reserved, Slot.state_bits]

theorem is_occupied_iff {T : Type} (s : Slot T) : s.is_occupied = true ↔ s.version % 4 = 3 := by
  simp [Slot.is_occupied, Slot.state_bits]

theorem DeferredMap.allocate_handle_reuse_getD {T : Type} (m : DeferredMap T)
    (hlt : m.free_head < m.slots.length) :
    m.allocate_handle =
      (encode_key m.free_head
         (((m.slots.getD m.free_head (sentinelSlot T)).version + 1) % 2 ^ 32 / 4),
       { slots := m.slots.set m.free_head
           { u := (m.slots.getD m.free_head (sentinelSlot T)).u,
             version := ((m.slots.getD m.free_head (sentinelSlot T)).version + 1) % 2 ^ 32 },
         free_head := (m.slots.getD m.free_head (sentinelSlot T)).u.get_next_free,
         num_elems := m.num_elems }) := by
  rw [DeferredMap.allocate_handle_reuse m hlt, getD_eq_get m.slots m.free_head _ hlt]

theorem DeferredMap.insert_eq_getD {T : Type} (m : DeferredMap T) (handle : Nat) (value : T)
    (hlt : handle_index handle < m.slots.length) :
    m.insert handle value =
      { slots := m.slots.set (handle_index handle)
          { u := SlotUnion.value value,
            version :=
              ((m.slots.getD (handle_index handle) (sentinelSlot T)).version + 2) % 2 ^ 32 },
        free_head := m.free_head,
        num_elems := (m.num_elems + 1) % 2 ^ 32 } := by
  rw [DeferredMap.insert_eq m handle value hlt, getD_eq_get m.slots (handle_index handle) _ hlt]

theorem DeferredMap.release_handle_eq_getD {T : Type} (m : DeferredMap T) (handle : Nat)
    (hlt : handle_index handle < m.slots.length) :
    m.release_handle handle =
      { slots := m.slots.set (handle_index handle)
          { u := SlotUnion.next_free m.free_head,
            version :=
              ((m.slots.getD (handle_index handle) (sentinelSlot T)).version + 3) % 2 ^ 32 },
        free_head := handle_index handle,
        num_elems := m.num_elems } := by
  rw [DeferredMap.release_handle_eq m handle hlt, getD_eq_get m.slots (handle_index handle) _ hlt]

theorem DeferredMap.remove_eq_of_valid {T : Type} (m : DeferredMap T) (key : Nat)
    (h : KeyValid m key) :
    m.remove key =
      ((m.slots.getD (decode_key key).1 (sentinelSlot T)).read_value,
       { slots := m.slots.set (decode_key key).1
           { u := SlotUnion.next_free m.free_head,
             version :=
               ((m.slots.getD (decode_key key).1 (sentinelSlot T)).version + 1) % 2 ^ 32 },
         free_head := (decode_key key).1,
         num_elems := (m.num_elems + (2 ^ 32 - 1)) % 2 ^ 32 }) := by
  obtain ⟨hlt, hgen, hocc⟩ := h
  simp only [DeferredMap.remove]
  rw [dif_pos hlt]
  rw [getD_eq_get m.slots (decode_key key).1 _ hlt] at hgen hocc ⊢
  rw [if_pos]
  · rfl
  · rw [Bool.and_eq_true, beq_iff_eq]
    exact ⟨hgen, hocc⟩

theorem DeferredMap.remove_eq_of_invalid {T : Type} (m : DeferredMap T) (key : Nat)
    (h : ¬ KeyValid m key) :
    m.remove key = (none, m) := by
  simp only [DeferredMap.remove]
  by_cases hlt : (decode_key key).1 < m.slots.length
  · rw [dif_pos hlt, if_neg]
    rw [Bool.and_eq_true, beq_iff_eq]
    intro hc
    apply h
    refine ⟨hlt, ?_, ?_⟩ <;> rw [getD_eq_get m.slots (decode_key key).1 _ hlt]
    · exact hc.1
    · exact hc.2
  · rw [dif_neg hlt]

/-! Preservation of the structural invariant by every public operation. -/

theorem Inv_base {T : Type} :
    Inv { slots := [sentinelSlot T], free_head := 1, num_elems := 0 } := by
  refine ⟨rfl, by simp, ?_, ?_, ?_, rfl, ⟨[], ?_, List.nodup_nil, ?_⟩⟩
  · intro i
    cases i with
    | zero => show (0 : Nat) < 2 ^ 32; omega
    | succ n =>
      rw [getD_oob _ _ _ (by simp)]
      show (0 : Nat) < 2 ^ 32
      omega
  · intro i
    cases i with
    | zero => show (0 : Nat) % 4 ≠ 2; omega
    | succ n =>
      rw [getD_oob _ _ _ (by simp)]
      show (0 : Nat) % 4 ≠ 2
      omega
  · intro i hocc
    exfalso
    cases i with
    | zero => simp [sentinelSlot, Slot.is_occupied, Slot.state_bits, List.getD] at hocc
    | succ n =>
      rw [getD_oob _ _ _ (by simp)] at hocc
      simp [sentinelSlot, Slot.is_occupied, Slot.state_bits] at hocc
  · show ([sentinelSlot T]).length ≤ 1
    simp
  · intro j hj1 hjlen hjvac
    simp at hjlen
    omega

theorem Inv_new {T : Type} : Inv (DeferredMap.new T) := Inv_base

theorem Inv_clear {T : Type} (m : DeferredMap T) : Inv m.clear := Inv_base

theorem Inv_alloc {T : Type} (m : DeferredMap T) (hInv : Inv m)
    (hlen : (m.allocate_handle).2.slots.length < 2 ^ 32) :
    Inv (m.allocate_handle).2 := by
  obtain ⟨L, hc, hnd, hcomp⟩ := hInv.free
  by_cases h : m.free_head < m.slots.length
  · obtain ⟨rest, hL⟩ := FreeChain_head_lt hc h
    subst hL
    obtain ⟨-, h1, hlt2, hvac, hnext⟩ := hc
    rw [DeferredMap.allocate_handle_reuse_getD m h] at hlen ⊢
    simp only [List.length_set] at hlen
    have hv4 : (m.slots.getD m.free_head (sentinelSlot T)).version % 4 = 0 :=
      (is_vacant_iff _).1 hvac
    have hvlt : (m.slots.getD m.free_head (sentinelSlot T)).version < 2 ^ 32 :=
      hInv.versions m.free_head
    refine ⟨?_, ?_, ?_, ?_, ?_, ?_, ⟨rest, ?_, ?_, ?_⟩⟩
    · rw [getD_set_ne _ _ _ _ _ (by omega)]
      exact hInv.sentinel
    · simpa using hInv.len_pos
    · intro i
      by_cases hi : m.free_head = i
      · rw [← hi, getD_set_lt _ _ _ _ h]
        show ((m.slots.getD m.free_head (sentinelSlot T)).version + 1) % 2 ^ 32 < 2 ^ 32
        omega
      · rw [getD_set_ne _ _ _ _ _ hi]
        exact hInv.versions i
    · intro i
      by_cases hi : m.free_head = i
      · rw [← hi, getD_set_lt _ _ _ _ h]
        show ((m.slots.getD m.free_head (sentinelSlot T)).version + 1) % 2 ^ 32 % 4 ≠ 2
        omega
      · rw [getD_set_ne _ _ _ _ _ hi]
        exact hInv.no_invalid i
    · intro i hocc
      by_cases hi : m.free_head = i
      · exfalso
        rw [← hi, getD_set_lt _ _ _ _ h] at hocc
        rw [is_occupied_iff] at hocc
        revert hocc
        show ¬ ((m.slots.getD m.free_head (sentinelSlot T)).version + 1) % 2 ^ 32 % 4 = 3
        omega
      · rw [getD_set_ne _ _ _ _ _ hi] at hocc ⊢
        exact hInv.occ_val i hocc
    · show m.num_elems = occupiedCount (m.slots.set m.free_head _)
      have hcnt := countP_set (fun s : Slot T => s.is_occupied) m.slots m.free_head
        { u := (m.slots.getD m.free_head (sentinelSlot T)).u,
          version := ((m.slots.getD m.free_head (sentinelSlot T)).version + 1) % 2 ^ 32 }
        (sentinelSlot T) h
      have hold : (m.slots.getD m.free_head (sentinelSlot T)).is_occupied = false := by
        rw [Bool.eq_false_iff]
        intro hx
        rw [is_occupied_iff] at hx
        omega
      have hnew : (Slot.mk (m.slots.getD m.free_head (sentinelSlot T)).u
          (((m.slots.getD m.free_head (sentinelSlot T)).version + 1) % 2 ^ 32)).is_occupied
            = false := by
        rw [Bool.eq_false_iff]
        intro hx
        rw [is_occupied_iff] at hx
        revert hx
        show ¬ ((m.slots.getD m.free_head (sentinelSlot T)).version + 1) % 2 ^ 32 % 4 = 3
        omega
      simp only [hold, hnew] at hcnt
      rw [show (if false = true then (1:Nat) else 0) = 0 from rfl] at hcnt
      have := hInv.count
      unfold occupiedCount at this ⊢
      omega
    · exact FreeChain_set_notMem hnext m.free_head _ (List.nodup_cons.1 hnd).1
    · exact (List.nodup_cons.1 hnd).2
    · intro j hj1 hjlen hjvac
      simp only [List.length_set] at hjlen
      by_cases hj : m.free_head = j
      · exfalso
        rw [← hj, getD_set_lt _ _ _ _ h] at hjvac
        rw [is_vacant_iff] at hjvac
        revert hjvac
        show ¬ ((m.slots.getD m.free_head (sentinelSlot T)).version + 1) % 2 ^ 32 % 4 = 0
        omega
      · rw [getD_set_ne _ _ _ _ _ hj] at hjvac
        have := hcomp j hj1 hjlen hjvac
        rcases List.mem_cons.1 this with he | hr
        · exact absurd he.symm hj
        · exact hr
  · have hge : m.slots.length ≤ m.free_head := Nat.le_of_not_lt h
    have hLnil : L = [] := by
      cases L with
      | nil => rfl
      | cons i rest =>
        obtain ⟨hp, -, hlt2, -, -⟩ := hc
        omega
    subst hLnil
    rw [DeferredMap.allocate_handle_append m hge] at hlen ⊢
    simp only [List.length_append, List.length_singleton] at hlen
    have hlm : m.slots.length < 2 ^ 32 := by omega
    refine ⟨?_, ?_, ?_, ?_, ?_, ?_, ⟨[], ?_, List.nodup_nil, ?_⟩⟩
    · rw [getD_append_left _ _ _ _ hInv.len_pos]
      exact hInv.sentinel
    · simp
    · intro i
      rcases Nat.lt_trichotomy i m.slots.length with hi | hi | hi
      · rw [getD_append_left _ _ _ _ hi]
        exact hInv.versions i
      · rw [hi, getD_append_len]
        show (1 : Nat) < 2 ^ 32
        omega
      · rw [getD_append_gt _ _ _ _ hi]
        show (0 : Nat) < 2 ^ 32
        omega
    · intro i
      rcases Nat.lt_trichotomy i m.slots.length with hi | hi | hi
      · rw [getD_append_left _ _ _ _ hi]
        exact hInv.no_invalid i
      · rw [hi, getD_append_len]
        show (1 : Nat) % 4 ≠ 2
        omega
      · rw [getD_append_gt _ _ _ _ hi]
        show (0 : Nat) % 4 ≠ 2
        omega
    · intro i hocc
      rcases Nat.lt_trichotomy i m.slots.length with hi | hi | hi
      · rw [getD_append_left _ _ _ _ hi] at hocc ⊢
        exact hInv.occ_val i hocc
      · exfalso
        rw [hi, getD_append_len, is_occupied_iff] at hocc
        revert hocc
        show ¬ (1 : Nat) % 4 = 3
        omega
      · exfalso
        rw [getD_append_gt _ _ _ _ hi, is_occupied_iff] at hocc
        revert hocc
        show ¬ (0 : Nat) % 4 = 3
        omega
    · show m.num_elems = occupiedCount (m.slots ++ [_])
      unfold occupiedCount
      rw [List.countP_append]
      have : List.countP (fun s : Slot T => s.is_occupied)
          [({ u := SlotUnion.next_free 0, version := 1 } : Slot T)] = 0 := by
        simp [List.countP_cons, Slot.is_occupied, Slot.state_bits]
      rw [this]
      have := hInv.count
      unfold occupiedCount at this
      omega
    · show (m.slots ++ [_]).length ≤ (m.slots.length % 2 ^ 32 + 1) % 2 ^ 32
      simp only [List.length_append, List.length_singleton]
      omega
    · intro j hj1 hjlen hjvac
      simp only [List.length_append, List.length_singleton] at hjlen
      rcases Nat.lt_trichotomy j m.slots.length with hj | hj | hj
      · rw [getD_append_left _ _ _ _ hj] at hjvac
        exact absurd (hcomp j hj1 hj hjvac) (List.not_mem_nil j)
      · rw [hj, getD_append_len, is_vacant_iff] at hjvac
        exfalso
        revert hjvac
        show ¬ (1 : Nat) % 4 = 0
        omega
      · omega

theorem Inv_insert {T : Type} (m : DeferredMap T) (handle : Nat) (v : T)
    (hInv : Inv m) (hok : HandleOk m handle) (hL : m.slots.length < 2 ^ 32) :
    Inv (m.insert handle v) := by
  obtain ⟨hnz, hlt, hgen, hres⟩ := hok
  obtain ⟨L, hc, hnd, hcomp⟩ := hInv.free
  rw [DeferredMap.insert_eq_getD m handle v hlt]
  have hv4 : (m.slots.getD (handle_index handle) (sentinelSlot T)).version % 4 = 1 :=
    (is_reserved_iff _).1 hres
  have hvlt : (m.slots.getD (handle_index handle) (sentinelSlot T)).version < 2 ^ 32 :=
    hInv.versions (handle_index handle)
  have hnotmem : handle_index handle ∉ L := by
    intro hmem
    have := (FreeChain_mem hc (handle_index handle) hmem).2.2
    rw [is_vacant_iff] at this
    omega
  refine ⟨?_, ?_, ?_, ?_, ?_, ?_, ⟨L, ?_, hnd, ?_⟩⟩
  · rw [getD_set_ne _ _ _ _ _ hnz]
    exact hInv.sentinel
  · simpa using hInv.len_pos
  · intro i
    by_cases hi : handle_index handle = i
    · rw [← hi, getD_set_lt _ _ _ _ hlt]
      show ((m.slots.getD (handle_index handle) (sentinelSlot T)).version + 2) % 2 ^ 32 < 2 ^ 32
      omega
    · rw [getD_set_ne _ _ _ _ _ hi]
      exact hInv.versions i
  · intro i
    by_cases hi : handle_index handle = i
    · rw [← hi, getD_set_lt _ _ _ _ hlt]
      show ((m.slots.getD (handle_index handle) (sentinelSlot T)).version + 2) % 2 ^ 32 % 4 ≠ 2
      omega
    · rw [getD_set_ne _ _ _ _ _ hi]
      exact hInv.no_invalid i
  · intro i hocc
    by_cases hi : handle_index handle = i
    · rw [← hi, getD_set_lt _ _ _ _ hlt]
      rfl
    · rw [getD_set_ne _ _ _ _ _ hi] at hocc ⊢
      exact hInv.occ_val i hocc
  · show (m.num_elems + 1) % 2 ^ 32 = occupiedCount (m.slots.set (handle_index handle) _)
    have hcnt := countP_set (fun s : Slot T => s.is_occupied) m.slots (handle_index handle)
      { u := SlotUnion.value v,
        version := ((m.slots.getD (handle_index handle) (sentinelSlot T)).version + 2) % 2 ^ 32 }
      (sentinelSlot T) hlt
    have hold : (m.slots.getD (handle_index handle) (sentinelSlot T)).is_occupied = false := by
      rw [Bool.eq_false_iff]
      intro hx
      rw [is_occupied_iff] at hx
      omega
    have hnew : (Slot.mk (SlotUnion.value v)
        (((m.slots.getD (handle_index handle) (sentinelSlot T)).version + 2) % 2 ^ 32)).is_occupied
          = true := by
      rw [is_occupied_iff]
      show ((m.slots.getD (handle_index handle) (sentinelSlot T)).version + 2) % 2 ^ 32 % 4 = 3
      omega
    simp only [hold, hnew] at hcnt
    rw [show (if false = true then (1:Nat) else 0) = 0 from rfl] at hcnt
    rw [if_pos trivial] at hcnt
    have hsen : (m.slots.getD 0 (sentinelSlot T)).is_occupied = false := by
      rw [Bool.eq_false_iff]
      intro hx
      rw [is_occupied_iff, hInv.sentinel] at hx
      omega
    have hcl := occupiedCount_lt_length m.slots hInv.len_pos hsen
    have := hInv.count
    unfold occupiedCount at this hcl ⊢
    omega
  · exact FreeChain_set_notMem hc (handle_index handle) _ hnotmem
  · intro j hj1 hjlen hjvac
    simp only [List.length_set] at hjlen
    by_cases hj : handle_index handle = j
    · exfalso
      rw [← hj, getD_set_lt _ _ _ _ hlt, is_vacant_iff] at hjvac
      revert hjvac
      show ¬ ((m.slots.getD (handle_index handle) (sentinelSlot T)).version + 2) % 2 ^ 32 % 4 = 0
      omega
    · rw [getD_set_ne _ _ _ _ _ hj] at hjvac
      exact hcomp j hj1 hjlen hjvac

theorem Inv_release {T : Type} (m : DeferredMap T) (handle : Nat)
    (hInv : Inv m) (hok : HandleOk m handle) :
    Inv (m.release_handle handle) := by
  obtain ⟨hnz, hlt, hgen, hres⟩ := hok
  obtain ⟨L, hc, hnd, hcomp⟩ := hInv.free
  rw [DeferredMap.release_handle_eq_getD m handle hlt]
  have hv4 : (m.slots.getD (handle_index handle) (sentinelSlot T)).version % 4 = 1 :=
    (is_reserved_iff _).1 hres
  have hvlt : (m.slots.getD (handle_index handle) (sentinelSlot T)).version < 2 ^ 32 :=
    hInv.versions (handle_index handle)
  have hnotmem : handle_index handle ∉ L := by
    intro hmem
    have := (FreeChain_mem hc (handle_index handle) hmem).2.2
    rw [is_vacant_iff] at this
    omega
  refine ⟨?_, ?_, ?_, ?_, ?_, ?_, ⟨handle_index handle :: L, ?_, ?_, ?_⟩⟩
  · rw [getD_set_ne _ _ _ _ _ hnz]
    exact hInv.sentinel
  · simpa using hInv.len_pos
  · intro i
    by_cases hi : handle_index handle = i
    · rw [← hi, getD_set_lt _ _ _ _ hlt]
      show ((m.slots.getD (handle_index handle) (sentinelSlot T)).version + 3) % 2 ^ 32 < 2 ^ 32
      omega
    · rw [getD_set_ne _ _ _ _ _ hi]
      exact hInv.versions i
  · intro i
    by_cases hi : handle_index handle = i
    · rw [← hi, getD_set_lt _ _ _ _ hlt]
      show ((m.slots.getD (handle_index handle) (sentinelSlot T)).version + 3) % 2 ^ 32 % 4 ≠ 2
      omega
    · rw [getD_set_ne _ _ _ _ _ hi]
      exact hInv.no_invalid i
  · intro i hocc
    by_cases hi : handle_index handle = i
    · exfalso
      rw [← hi, getD_set_lt _ _ _ _ hlt, is_occupied_iff] at hocc
      revert hocc
      show ¬ ((m.slots.getD (handle_index handle) (sentinelSlot T)).version + 3) % 2 ^ 32 % 4 = 3
      omega
    · rw [getD_set_ne _ _ _ _ _ hi] at hocc ⊢
      exact hInv.occ_val i hocc
  · show m.num_elems = occupiedCount (m.slots.set (handle_index handle) _)
    have hcnt := countP_set (fun s : Slot T => s.is_occupied) m.slots (handle_index handle)
      { u := SlotUnion.next_free m.free_head,
        version := ((m.slots.getD (handle_index handle) (sentinelSlot T)).version + 3) % 2 ^ 32 }
      (sentinelSlot T) hlt
    have hold : (m.slots.getD (handle_index handle) (sentinelSlot T)).is_occupied = false := by
      rw [Bool.eq_false_iff]
      intro hx
      rw [is_occupied_iff] at hx
      omega
    have hnew : (Slot.mk (SlotUnion.next_free m.free_head : SlotUnion T)
        (((m.slots.getD (handle_index handle) (sentinelSlot T)).version + 3) % 2 ^ 32)).is_occupied
          = false := by
      rw [Bool.eq_false_iff]
      intro hx
      rw [is_occupied_iff] at hx
      revert hx
      show ¬ ((m.slots.getD (handle_index handle) (sentinelSlot T)).version + 3) % 2 ^ 32 % 4 = 3
      omega
    simp only [hold, hnew] at hcnt
    rw [show (if false = true then (1:Nat) else 0) = 0 from rfl] at hcnt
    have := hInv.count
    unfold occupiedCount at this ⊢
    omega
  · refine ⟨rfl, by omega, by simpa using hlt, ?_, ?_⟩
    · rw [getD_set_lt _ _ _ _ hlt, is_vacant_iff]
      show ((m.slots.getD (handle_index handle) (sentinelSlot T)).version + 3) % 2 ^ 32 % 4 = 0
      omega
    · rw [getD_set_lt _ _ _ _ hlt]
      show FreeChain _ m.free_head L
      exact FreeChain_set_notMem hc (handle_index handle) _ hnotmem
  · exact List.nodup_cons.2 ⟨hnotmem, hnd⟩
  · intro j hj1 hjlen hjvac
    simp only [List.length_set] at hjlen
    by_cases hj : handle_index handle = j
    · rw [← hj]
      exact List.mem_cons_self _ _
    · rw [getD_set_ne _ _ _ _ _ hj] at hjvac
      exact List.mem_cons_of_mem _ (hcomp j hj1 hjlen hjvac)

theorem Inv_remove {T : Type} (m : DeferredMap T) (key : Nat)
    (hInv : Inv m) (hL : m.slots.length < 2 ^ 32) :
    Inv (m.remove key).2 := by
  by_cases hv : KeyValid m key
  · obtain ⟨hlt, hgen, hocc⟩ := hv
    obtain ⟨L, hc, hnd, hcomp⟩ := hInv.free
    rw [DeferredMap.remove_eq_of_valid m key ⟨hlt, hgen, hocc⟩]
    have hv4 : (m.slots.getD (decode_key key).1 (sentinelSlot T)).version % 4 = 3 :=
      (is_occupied_iff _).1 hocc
    have hvlt : (m.slots.getD (decode_key key).1 (sentinelSlot T)).version < 2 ^ 32 :=
      hInv.versions (decode_key key).1
    have hnz : (decode_key key).1 ≠ 0 := by
      intro he
      rw [he] at hv4
      rw [hInv.sentinel] at hv4
      omega
    have hnotmem : (decode_key key).1 ∉ L := by
      intro hmem
      have := (FreeChain_mem hc (decode_key key).1 hmem).2.2
      rw [is_vacant_iff] at this
      omega
    refine ⟨?_, ?_, ?_, ?_, ?_, ?_, ⟨(decode_key key).1 :: L, ?_, ?_, ?_⟩⟩
    · rw [getD_set_ne _ _ _ _ _ hnz]
      exact hInv.sentinel
    · simpa using hInv.len_pos
    · intro i
      by_cases hi : (decode_key key).1 = i
      · rw [← hi, getD_set_lt _ _ _ _ hlt]
        show ((m.slots.getD (decode_key key).1 (sentinelSlot T)).version + 1) % 2 ^ 32 < 2 ^ 32
        omega
      · rw [getD_set_ne _ _ _ _ _ hi]
        exact hInv.versions i
    · intro i
      by_cases hi : (decode_key key).1 = i
      · rw [← hi, getD_set_lt _ _ _ _ hlt]
        show ((m.slots.getD (decode_key key).1 (sentinelSlot T)).version + 1) % 2 ^ 32 % 4 ≠ 2
        omega
      · rw [getD_set_ne _ _ _ _ _ hi]
        exact hInv.no_invalid i
    · intro i hio
      by_cases hi : (decode_key key).1 = i
      · exfalso
        rw [← hi, getD_set_lt _ _ _ _ hlt, is_occupied_iff] at hio
        revert hio
        show ¬ ((m.slots.getD (decode_key key).1 (sentinelSlot T)).version + 1) % 2 ^ 32 % 4 = 3
        omega
      · rw [getD_set_ne _ _ _ _ _ hi] at hio ⊢
        exact hInv.occ_val i hio
    · show (m.num_elems + (2 ^ 32 - 1)) % 2 ^ 32 =
        occupiedCount (m.slots.set (decode_key key).1 _)
      have hcnt := countP_set (fun s : Slot T => s.is_occupied) m.slots (decode_key key).1
        { u := SlotUnion.next_free m.free_head,
          version := ((m.slots.getD (decode_key key).1 (sentinelSlot T)).version + 1) % 2 ^ 32 }
        (sentinelSlot T) hlt
      have hold : (m.slots.getD (decode_key key).1 (sentinelSlot T)).is_occupied = true := hocc
      have hnew : (Slot.mk (SlotUnion.next_free m.free_head : SlotUnion T)
          (((m.slots.getD (decode_key key).1 (sentinelSlot T)).version + 1) % 2 ^ 32)).is_occupied
            = false := by
        rw [Bool.eq_false_iff]
        intro hx
        rw [is_occupied_iff] at hx
        revert hx
        show ¬ ((m.slots.getD (decode_key key).1 (sentinelSlot T)).version + 1) % 2 ^ 32 % 4 = 3
        omega
      simp only [hold, hnew] at hcnt
      rw [if_pos trivial] at hcnt
      rw [show (if false = true then (1:Nat) else 0) = 0 from rfl] at hcnt
      have hpos := occupiedCount_pos m.slots (decode_key key).1 hlt hocc
      have hsen : (m.slots.getD 0 (sentinelSlot T)).is_occupied = false := by
        rw [Bool.eq_false_iff]
        intro hx
        rw [is_occupied_iff, hInv.sentinel] at hx
        omega
      have hcl := occupiedCount_lt_length m.slots hInv.len_pos hsen
      have := hInv.count
      unfold occupiedCount at this hcl hpos ⊢
      omega
    · refine ⟨rfl, by omega, by simpa using hlt, ?_, ?_⟩
      · rw [getD_set_lt _ _ _ _ hlt, is_vacant_iff]
        show ((m.slots.getD (decode_key key).1 (sentinelSlot T)).version + 1) % 2 ^ 32 % 4 = 0
        omega
      · rw [getD_set_lt _ _ _ _ hlt]
        show FreeChain _ m.free_head L
        exact FreeChain_set_notMem hc (decode_key key).1 _ hnotmem
    · exact List.nodup_cons.2 ⟨hnotmem, hnd⟩
    · intro j hj1 hjlen hjvac
      simp only [List.length_set] at hjlen
      by_cases hj : (decode_key key).1 = j
      · rw [← hj]
        exact List.mem_cons_self _ _
      · rw [getD_set_ne _ _ _ _ _ hj] at hjvac
        exact List.mem_cons_of_mem _ (hcomp j hj1 hjlen hjvac)
  · rw [DeferredMap.remove_eq_of_invalid m key hv]
    exact hInv

theorem Inv_step {T : Type} {m m' : DeferredMap T} (hstep : Step T m m')
    (ih : m.slots.length < 2 ^ 32 → Inv m) (hlen : m'.slots.length < 2 ^ 32) : Inv m' := by
  cases hstep with
  | alloc =>
      apply Inv_alloc m _ hlen
      apply ih
      by_cases h : m.free_head < m.slots.length
      · rw [DeferredMap.allocate_handle_reuse m h] at hlen
        simpa using hlen
      · rw [DeferredMap.allocate_handle_append m (Nat.le_of_not_lt h)] at hlen
        simp at hlen
        omega
  | ins handle v hok =>
      have hlm : m.slots.length < 2 ^ 32 := by
        obtain ⟨-, hlt, -, -⟩ := hok
        rw [DeferredMap.insert_eq_getD m handle v hlt] at hlen
        simpa using hlen
      exact Inv_insert m handle v (ih hlm) hok hlm
  | rem key =>
      have hlm : m.slots.length < 2 ^ 32 := by
        by_cases hv : KeyValid m key
        · rw [DeferredMap.remove_eq_of_valid m key hv] at hlen
          simpa using hlen
        · rw [DeferredMap.remove_eq_of_invalid m key hv] at hlen
          exact hlen
      exact Inv_remove m key (ih hlm) hlm
  | rel handle hok =>
      have hlm : m.slots.length < 2 ^ 32 := by
        obtain ⟨-, hlt, -, -⟩ := hok
        rw [DeferredMap.release_handle_eq_getD m handle hlt] at hlen
        simpa using hlen
      exact Inv_release m handle (ih hlm) hok
  | clr => exact Inv_clear m

theorem Reachable_Inv {T : Type} {m : DeferredMap T} (hr : Reachable m)
    (hlen : m.slots.length < 2 ^ 32) : Inv m := by
  induction hr with
  | refl => exact Inv_new
  | tail hsteps hstep ih =>
      exact Inv_step hstep (fun h => ih h) hlen

/-! Characterisation of lookups and of a fresh allocation. -/

theorem DeferredMap.get_eq {T : Type} (m : DeferredMap T) (key : Nat) :
    m.get key = if KeyValid m key then
      (m.slots.getD (decode_key key).1 (sentinelSlot T)).read_value else none := by
  simp only [DeferredMap.get]
  split
  · rename_i hlt
    split
    · rename_i hc
      rw [Bool.and_eq_true, beq_iff_eq] at hc
      rw [if_pos]
      · rw [getD_eq_get m.slots _ _ hlt]
        rfl
      · refine ⟨hlt, ?_, ?_⟩ <;> rw [getD_eq_get m.slots _ _ hlt]
        · exact hc.1
        · exact hc.2
    · rename_i hc
      rw [if_neg]
      intro hv
      apply hc
      obtain ⟨h1, h2, h3⟩ := hv
      rw [Bool.and_eq_true, beq_iff_eq]
      rw [getD_eq_get m.slots _ _ hlt] at h2 h3
      exact ⟨h2, h3⟩
  · rename_i hlt
    rw [if_neg]
    intro hv
    exact hlt hv.1

theorem DeferredMap.get_mut_eq_get {T : Type} (m : DeferredMap T) (key : Nat) :
    m.get_mut key = m.get key := rfl

theorem DeferredMap.allocate_length_le {T : Type} (m : DeferredMap T) :
    m.slots.length ≤ (m.allocate_handle).2.slots.length := by
  simp only [DeferredMap.allocate_handle]
  split <;> simp

theorem allocate_handle_spec {T : Type} (m : DeferredMap T) (hInv : Inv m)
    (hlen : (m.allocate_handle).2.slots.length < 2 ^ 32) :
    HandleOk (m.allocate_handle).2 (m.allocate_handle).1 ∧
    (m.allocate_handle).2.num_elems = m.num_elems := by
  obtain ⟨L, hc, hnd, hcomp⟩ := hInv.free
  by_cases h : m.free_head < m.slots.length
  · obtain ⟨rest, hL⟩ := FreeChain_head_lt hc h
    subst hL
    obtain ⟨-, h1, -, hvac, -⟩ := hc
    have hv4 : (m.slots.getD m.free_head (sentinelSlot T)).version % 4 = 0 :=
      (is_vacant_iff _).1 hvac
    have hvlt : (m.slots.getD m.free_head (sentinelSlot T)).version < 2 ^ 32 :=
      hInv.versions m.free_head
    rw [DeferredMap.allocate_handle_reuse_getD m h] at hlen ⊢
    simp only [List.length_set] at hlen
    have hidx : handle_index
        (encode_key m.free_head
          (((m.slots.getD m.free_head (sentinelSlot T)).version + 1) % 2 ^ 32 / 4)) =
        m.free_head := by
      rw [handle_index_encode]
      omega
    have hgen : handle_generation
        (encode_key m.free_head
          (((m.slots.getD m.free_head (sentinelSlot T)).version + 1) % 2 ^ 32 / 4)) =
        ((m.slots.getD m.free_head (sentinelSlot T)).version + 1) % 2 ^ 32 / 4 := by
      rw [handle_generation_encode]
      omega
    refine ⟨⟨?_, ?_, ?_, ?_⟩, rfl⟩
    · rw [hidx]; omega
    · rw [hidx]; simpa using h
    · rw [hidx, hgen]
      rw [getD_set_lt _ _ _ _ h]
      rfl
    · rw [hidx]
      rw [getD_set_lt _ _ _ _ h]
      rw [is_reserved_iff]
      show ((m.slots.getD m.free_head (sentinelSlot T)).version + 1) % 2 ^ 32 % 4 = 1
      omega
  · have hge : m.slots.length ≤ m.free_head := Nat.le_of_not_lt h
    rw [DeferredMap.allocate_handle_append m hge] at hlen ⊢
    simp only [List.length_append, List.length_singleton] at hlen
    have hlm : m.slots.length < 2 ^ 32 := by omega
    have hmod : m.slots.length % 2 ^ 32 = m.slots.length := Nat.mod_eq_of_lt hlm
    have hidx : handle_index (encode_key (m.slots.length % 2 ^ 32) (1 / 4)) =
        m.slots.length := by
      rw [handle_index_encode]
      omega
    have hgen : handle_generation (encode_key (m.slots.length % 2 ^ 32) (1 / 4)) = 0 := by
      rw [handle_generation_encode]
      omega
    refine ⟨⟨?_, ?_, ?_, ?_⟩, rfl⟩
    · rw [hidx]
      have := hInv.len_pos
      omega
    · rw [hidx]
      simp
    · rw [hidx, hgen, getD_append_len]
      show (1 : Nat) / 4 = 0
      omega
    · rw [hidx, getD_append_len]
      rw [is_reserved_iff]
      show (1 : Nat) % 4 = 1
      omega

theorem insert_spec {T : Type} (m : DeferredMap T) (handle : Nat) (v : T)
    (hok : HandleOk m handle)
    (hvlt : (m.slots.getD (handle_index handle) (sentinelSlot T)).version < 2 ^ 32) :
    ((m.insert handle v).slots.getD (handle_index handle) (sentinelSlot T)).generation =
      (m.slots.getD (handle_index handle) (sentinelSlot T)).generation ∧
    ((m.insert handle v).slots.getD (handle_index handle) (sentinelSlot T)).is_occupied
      = true ∧
    (m.insert handle v).get handle = some v := by
  obtain ⟨hnz, hlt, hgen, hres⟩ := hok
  have hv4 : (m.slots.getD (handle_index handle) (sentinelSlot T)).version % 4 = 1 :=
    (is_reserved_iff _).1 hres
  rw [DeferredMap.insert_eq_getD m handle v hlt]
  have hcell := getD_set_lt m.slots (handle_index handle)
    (Slot.mk (SlotUnion.value v)
      (((m.slots.getD (handle_index handle) (sentinelSlot T)).version + 2) % 2 ^ 32))
    (sentinelSlot T) hlt
  refine ⟨?_, ?_, ?_⟩
  · rw [hcell]
    show ((m.slots.getD (handle_index handle) (sentinelSlot T)).version + 2) % 2 ^ 32 / 4 =
      (m.slots.getD (handle_index handle) (sentinelSlot T)).version / 4
    omega
  · rw [hcell, is_occupied_iff]
    show ((m.slots.getD (handle_index handle) (sentinelSlot T)).version + 2) % 2 ^ 32 % 4 = 3
    omega
  · rw [DeferredMap.get_eq]
    rw [if_pos]
    · show ((m.slots.set (handle_index handle)
          (Slot.mk (SlotUnion.value v)
            (((m.slots.getD (handle_index handle) (sentinelSlot T)).version + 2)
              % 2 ^ 32))).getD (handle_index handle) (sentinelSlot T)).read_value = some v
      rw [hcell]
      rfl
    · refine ⟨by simpa using hlt, ?_, ?_⟩
      · show ((m.slots.set (handle_index handle)
            (Slot.mk (SlotUnion.value v)
              (((m.slots.getD (handle_index handle) (sentinelSlot T)).version + 2)
                % 2 ^ 32))).getD (handle_index handle) (sentinelSlot T)).generation =
          handle_generation handle
        rw [hcell]
        show ((m.slots.getD (handle_index handle) (sentinelSlot T)).version + 2) % 2 ^ 32 / 4 =
          handle_generation handle
        rw [← hgen]
        unfold Slot.generation
        omega
      · show ((m.slots.set (handle_index handle)
            (Slot.mk (SlotUnion.value v)
              (((m.slots.getD (handle_index handle) (sentinelSlot T)).version + 2)
                % 2 ^ 32))).getD (handle_index handle) (sentinelSlot T)).is_occupied = true
        rw [hcell, is_occupied_iff]
        show ((m.slots.getD (handle_index handle) (sentinelSlot T)).version + 2) % 2 ^ 32 % 4
          = 3
        omega

/-- C7: in every reachable state whose slot array fits the 32-bit index space,
`len()` equals the number of slots currently in occupied state; and
`allocate_handle` and `release_handle` never change `len()`. -/
theorem C7_len_counts_occupied (T : Type) :
    (∀ m : DeferredMap T, Reachable m → m.slots.length < 2 ^ 32 →
      m.len = occupiedCount m.slots) ∧
    (∀ m : DeferredMap T, (m.allocate_handle).2.len = m.len) ∧
    (∀ (m : DeferredMap T) (handle : Nat), (m.release_handle handle).len = m.len) := by
  refine ⟨?_, ?_, ?_⟩
  · intro m hr hlen
    exact (Reachable_Inv hr hlen).count
  · intro m
    simp only [DeferredMap.allocate_handle, DeferredMap.len]
    split <;> rfl
  · intro m handle
    simp only [DeferredMap.release_handle, DeferredMap.len]
    split <;> rfl

/-- Closed witness for `C7_len_counts_occupied` at the freshly created map. -/
theorem C7_len_counts_occupied_witness :
    (DeferredMap.new Nat).len = occupiedCount (DeferredMap.new Nat).slots ∧
    ((DeferredMap.new Nat).allocate_handle).2.len = (DeferredMap.new Nat).len :=
  ⟨(C7_len_counts_occupied Nat).1 (DeferredMap.new Nat) Relation.ReflTransGen.refl (by decide),
   (C7_len_counts_occupied Nat).2.1 (DeferredMap.new Nat)⟩

/-- C3: on every reachable state, `get`, `get_mut`, `contains_key` and `remove`
accept an arbitrary `u64` key and report presence exactly when the decoded
index is in bounds, the stored generation equals the key's generation, and the
slot is occupied; in every other case they report absence (no failure path). -/
theorem C3_lookup_total (T : Type) :
    ∀ (m : DeferredMap T), Reachable m → m.slots.length < 2 ^ 32 →
    ∀ key : Nat,
      ((m.get key).isSome = true ↔ KeyValid m key) ∧
      ((m.get_mut key).isSome = true ↔ KeyValid m key) ∧
      (m.contains_key key = true ↔ KeyValid m key) ∧
      ((m.remove key).1.isSome = true ↔ KeyValid m key) := by
  intro m hr hlen key
  have hInv := Reachable_Inv hr hlen
  have hget : (m.get key).isSome = true ↔ KeyValid m key := by
    rw [DeferredMap.get_eq]
    constructor
    · intro h
      by_cases hv : KeyValid m key
      · exact hv
      · rw [if_neg hv] at h
        simp at h
    · intro hv
      rw [if_pos hv]
      exact hInv.occ_val (decode_key key).1 hv.2.2
  refine ⟨hget, ?_, ?_, ?_⟩
  · rw [DeferredMap.get_mut_eq_get]
    exact hget
  · show (m.get key).isSome = true ↔ KeyValid m key
    exact hget
  · constructor
    · intro h
      by_cases hv : KeyValid m key
      · exact hv
      · rw [DeferredMap.remove_eq_of_invalid m key hv] at h
        simp at h
    · intro hv
      rw [DeferredMap.remove_eq_of_valid m key hv]
      exact hInv.occ_val (decode_key key).1 hv.2.2

/-- Closed witness for `C3_lookup_total`: on the fresh map every lookup of the
key 0 reports absence, matching the invalidity of that key. -/
theorem C3_lookup_total_witness :
    ((DeferredMap.new Nat).get 0).isSome = true ↔ KeyValid (DeferredMap.new Nat) 0 :=
  ((C3_lookup_total Nat) (DeferredMap.new Nat) Relation.ReflTransGen.refl (by decide) 0).1

/-- C5: for a handle freshly returned by `allocate_handle`, consuming it with
`insert` advances only the state bits: the slot's generation after the insert
equals the handle's generation, so the handle's key is valid and `get` on it
returns the inserted value. -/
theorem C5_insert_keeps_generation (T : Type) :
    ∀ (m : DeferredMap T), Reachable m → (m.allocate_handle).2.slots.length < 2 ^ 32 →
    ∀ v : T,
      (((m.allocate_handle).2.insert (m.allocate_handle).1 v).slots.getD
          (handle_index (m.allocate_handle).1) (sentinelSlot T)).generation =
        handle_generation (m.allocate_handle).1 ∧
      (((m.allocate_handle).2.insert (m.allocate_handle).1 v).slots.getD
          (handle_index (m.allocate_handle).1) (sentinelSlot T)).is_occupied = true ∧
      ((m.allocate_handle).2.insert (m.allocate_handle).1 v).get (m.allocate_handle).1
        = some v := by
  intro m hr hlen v
  have hInv := Reachable_Inv hr
    (Nat.lt_of_le_of_lt (DeferredMap.allocate_length_le m) hlen)
  have hInv1 : Inv (m.allocate_handle).2 := Inv_alloc m hInv hlen
  obtain ⟨hok, -⟩ := allocate_handle_spec m hInv hlen
  have hvlt := hInv1.versions (handle_index (m.allocate_handle).1)
  have hspec := insert_spec (m.allocate_handle).2 (m.allocate_handle).1 v hok hvlt
  refine ⟨?_, hspec.2.1, hspec.2.2⟩
  rw [hspec.1]
  exact hok.2.2.1

/-- Closed witness for `C5_insert_keeps_generation` on the fresh map. -/
theorem C5_insert_keeps_generation_witness :
    ((DeferredMap.new Nat).allocate_handle.2.insert
        (DeferredMap.new Nat).allocate_handle.1 42).get
      (DeferredMap.new Nat).allocate_handle.1 = some 42 :=
  ((C5_insert_keeps_generation Nat) (DeferredMap.new Nat) Relation.ReflTransGen.refl
    (by decide) 42).2.2

/-! Trace infrastructure: each valid operation is a step, grows the slot array
by at most one, and can advance a slot's generation only through a `remove` or
`release_handle` aimed at that index. -/

theorem exec_step {T : Type} (ms : DeferredMap T) (op : Op T) (hok : OpOk ms op) :
    Step T ms (exec ms op) := by
  cases op with
  | alloc => exact Step.alloc ms
  | ins handle v => exact Step.ins ms handle v hok
  | rem k => exact Step.rem ms k
  | rel handle => exact Step.rel ms handle hok
  | clr => exact Step.clr ms

theorem exec_length_le {T : Type} (ms : DeferredMap T) (op : Op T) :
    (exec ms op).slots.length ≤ ms.slots.length + 1 := by
  cases op with
  | alloc =>
      simp only [exec, DeferredMap.allocate_handle]
      split <;> simp
  | ins handle v =>
      simp only [exec, DeferredMap.insert]
      split <;> simp
  | rem k =>
      simp only [exec, DeferredMap.remove]
      split
      · split <;> simp
      · simp
  | rel handle =>
      simp only [exec, DeferredMap.release_handle]
      split <;> simp
  | clr =>
      simp only [exec, DeferredMap.clear]
      simp

theorem exec_gen_step {T : Type} (ms : DeferredMap T) (op : Op T) (idx : Nat)
    (hInv : Inv ms) (hok : OpOk ms op) (hcl : op.is_clear = false)
    (hidx : idx < ms.slots.length) :
    idx < (exec ms op).slots.length ∧
    (((exec ms op).slots.getD idx (sentinelSlot T)).generation =
        (ms.slots.getD idx (sentinelSlot T)).generation ∨
      (Op.touches idx op = true ∧
        ((exec ms op).slots.getD idx (sentinelSlot T)).generation =
          ((ms.slots.getD idx (sentinelSlot T)).generation + 1) % 2 ^ 30)) := by
  cases op with
  | alloc =>
      simp only [exec]
      by_cases h : ms.free_head < ms.slots.length
      · obtain ⟨L, hc, hnd, hcomp⟩ := hInv.free
        obtain ⟨rest, hL⟩ := FreeChain_head_lt hc h
        subst hL
        obtain ⟨-, h1, -, hvac, -⟩ := hc
        have hv4 : (ms.slots.getD ms.free_head (sentinelSlot T)).version % 4 = 0 :=
          (is_vacant_iff _).1 hvac
        have hvlt : (ms.slots.getD ms.free_head (sentinelSlot T)).version < 2 ^ 32 :=
          hInv.versions ms.free_head
        rw [DeferredMap.allocate_handle_reuse_getD ms h]
        refine ⟨by simpa using hidx, ?_⟩
        by_cases hi : ms.free_head = idx
        · left
          rw [← hi, getD_set_lt _ _ _ _ h]
          show ((ms.slots.getD ms.free_head (sentinelSlot T)).version + 1) % 2 ^ 32 / 4 =
            (ms.slots.getD ms.free_head (sentinelSlot T)).version / 4
          omega
        · left
          rw [getD_set_ne _ _ _ _ _ hi]
      · rw [DeferredMap.allocate_handle_append ms (Nat.le_of_not_lt h)]
        refine ⟨by simp; omega, ?_⟩
        left
        rw [getD_append_left _ _ _ _ hidx]
  | ins handle v =>
      simp only [exec]
      obtain ⟨hnz, hlt, hgen, hres⟩ := hok
      have hv4 : (ms.slots.getD (handle_index handle) (sentinelSlot T)).version % 4 = 1 :=
        (is_reserved_iff _).1 hres
      have hvlt : (ms.slots.getD (handle_index handle) (sentinelSlot T)).version < 2 ^ 32 :=
        hInv.versions (handle_index handle)
      rw [DeferredMap.insert_eq_getD ms handle v hlt]
      refine ⟨by simpa using hidx, ?_⟩
      by_cases hi : handle_index handle = idx
      · left
        rw [← hi, getD_set_lt _ _ _ _ hlt]
        show ((ms.slots.getD (handle_index handle) (sentinelSlot T)).version + 2) % 2 ^ 32 / 4 =
          (ms.slots.getD (handle_index handle) (sentinelSlot T)).version / 4
        omega
      · left
        rw [getD_set_ne _ _ _ _ _ hi]
  | rem k =>
      simp only [exec]
      by_cases hv : KeyValid ms k
      · obtain ⟨hlt, hgen, hocc⟩ := hv
        have hv4 : (ms.slots.getD (decode_key k).1 (sentinelSlot T)).version % 4 = 3 :=
          (is_occupied_iff _).1 hocc
        have hvlt : (ms.slots.getD (decode_key k).1 (sentinelSlot T)).version < 2 ^ 32 :=
          hInv.versions (decode_key k).1
        rw [DeferredMap.remove_eq_of_valid ms k ⟨hlt, hgen, hocc⟩]
        refine ⟨by simpa using hidx, ?_⟩
        by_cases hi : (decode_key k).1 = idx
        · right
          constructor
          · simp only [Op.touches]
            rw [beq_iff_eq]
            exact hi
          · rw [← hi, getD_set_lt _ _ _ _ hlt]
            show ((ms.slots.getD (decode_key k).1 (sentinelSlot T)).version + 1) % 2 ^ 32 / 4 =
              ((ms.slots.getD (decode_key k).1 (sentinelSlot T)).version / 4 + 1) % 2 ^ 30
            omega
        · left
          rw [getD_set_ne _ _ _ _ _ hi]
      · rw [DeferredMap.remove_eq_of_invalid ms k hv]
        exact ⟨hidx, Or.inl rfl⟩
  | rel handle =>
      simp only [exec]
      obtain ⟨hnz, hlt, hgen, hres⟩ := hok
      have hv4 : (ms.slots.getD (handle_index handle) (sentinelSlot T)).version % 4 = 1 :=
        (is_reserved_iff _).1 hres
      have hvlt : (ms.slots.getD (handle_index handle) (sentinelSlot T)).version < 2 ^ 32 :=
        hInv.versions (handle_index handle)
      rw [DeferredMap.release_handle_eq_getD ms handle hlt]
      refine ⟨by simpa using hidx, ?_⟩
      by_cases hi : handle_index handle = idx
      · right
        constructor
        · simp only [Op.touches]
          rw [beq_iff_eq]
          exact hi
        · rw [← hi, getD_set_lt _ _ _ _ hlt]
          show ((ms.slots.getD (handle_index handle) (sentinelSlot T)).version + 3) % 2 ^ 32 / 4
            = ((ms.slots.getD (handle_index handle) (sentinelSlot T)).version / 4 + 1) % 2 ^ 30
          omega
      · left
        rw [getD_set_ne _ _ _ _ _ hi]
  | clr => simp [Op.is_clear] at hcl

theorem gen_trace {T : Type} (idx g : Nat) :
    ∀ (ops : List (Op T)) (ms : DeferredMap T) (c : Nat),
      Reachable ms → ms.slots.length + ops.length < 2 ^ 32 →
      ValidOps ms ops → (∀ op ∈ ops, op.is_clear = false) →
      idx < ms.slots.length →
      (∃ d, d ≤ c ∧ (ms.slots.getD idx (sentinelSlot T)).generation = (g + 1 + d) % 2 ^ 30) →
      idx < (execList ms ops).slots.length ∧
      ∃ d, d ≤ c + ops.countP (Op.touches idx) ∧
        ((execList ms ops).slots.getD idx (sentinelSlot T)).generation =
          (g + 1 + d) % 2 ^ 30 := by
  intro ops
  induction ops with
  | nil =>
      intro ms c hr hb hv hcl hidx hd
      refine ⟨hidx, ?_⟩
      obtain ⟨d, hdc, hg⟩ := hd
      exact ⟨d, by simpa using hdc, hg⟩
  | cons op rest ih =>
      intro ms c hr hb hv hcl hidx hd
      obtain ⟨hop, hvrest⟩ := hv
      have hcl0 : op.is_clear = false := hcl op (List.mem_cons_self _ _)
      have hclrest : ∀ o ∈ rest, Op.is_clear o = false :=
        fun o ho => hcl o (List.mem_cons_of_mem _ ho)
      have hlen0 : ms.slots.length < 2 ^ 32 := by
        simp only [List.length_cons] at hb
        omega
      have hInv := Reachable_Inv hr hlen0
      have hstep := exec_gen_step ms op idx hInv hop hcl0 hidx
      have hr1 : Reachable (exec ms op) := Relation.ReflTransGen.tail hr (exec_step ms op hop)
      have hb1 : (exec ms op).slots.length + rest.length < 2 ^ 32 := by
        have := exec_length_le ms op
        simp only [List.length_cons] at hb
        omega
      obtain ⟨hidx1, hgen1⟩ := hstep
      obtain ⟨d, hdc, hgd⟩ := hd
      show idx < (execList (exec ms op) rest).slots.length ∧ _
      rcases hgen1 with he | ⟨ht, he⟩
      · have hd1 : ∃ d2, d2 ≤ c ∧
            ((exec ms op).slots.getD idx (sentinelSlot T)).generation = (g + 1 + d2) % 2 ^ 30 :=
          ⟨d, hdc, by rw [he, hgd]⟩
        obtain ⟨hfin, d3, hd3, hg3⟩ := ih (exec ms op) c hr1 hb1 hvrest hclrest hidx1 hd1
        refine ⟨hfin, d3, ?_, hg3⟩
        have : rest.countP (Op.touches idx) ≤ (op :: rest).countP (Op.touches idx) := by
          simp only [List.countP_cons]
          omega
        omega
      · have he2 : ((exec ms op).slots.getD idx (sentinelSlot T)).generation =
            (g + 1 + (d + 1)) % 2 ^ 30 := by
          rw [he, hgd]
          omega
        have hd1 : ∃ d2, d2 ≤ c + 1 ∧
            ((exec ms op).slots.getD idx (sentinelSlot T)).generation = (g + 1 + d2) % 2 ^ 30 :=
          ⟨d + 1, by omega, he2⟩
        obtain ⟨hfin, d3, hd3, hg3⟩ := ih (exec ms op) (c + 1) hr1 hb1 hvrest hclrest hidx1 hd1
        refine ⟨hfin, d3, ?_, hg3⟩
        have : (op :: rest).countP (Op.touches idx) = rest.countP (Op.touches idx) + 1 := by
          simp only [List.countP_cons, ht]
          rw [if_pos trivial]
        omega

/-- C4 counterexample: `clear` resets every generation, so after a successful
`remove(k)` — with no generation wraparound anywhere in the run — a `clear`
followed by a fresh allocation re-issues the very same key, and the container
then reports presence for the removed key `k` again. -/
theorem C4_invalidation_counterexample :
    ((((DeferredMap.new Nat).allocate_handle.2.insert (encode_key 1 0) 42).remove
        (encode_key 1 0)).1 = some 42) ∧
    ((((DeferredMap.new Nat).allocate_handle.2.insert (encode_key 1 0) 42).remove
        (encode_key 1 0)).2.get (encode_key 1 0) = none) ∧
    Reachable (((((DeferredMap.new Nat).allocate_handle.2.insert (encode_key 1 0) 42).remove
        (encode_key 1 0)).2.clear.allocate_handle.2.insert (encode_key 1 0) 7)) ∧
    (((((DeferredMap.new Nat).allocate_handle.2.insert (encode_key 1 0) 42).remove
        (encode_key 1 0)).2.clear.allocate_handle.2.insert (encode_key 1 0) 7).get
        (encode_key 1 0) = some 7) := by
  refine ⟨by decide, by decide, ?_, by decide⟩
  exact Relation.ReflTransGen.tail
    (Relation.ReflTransGen.tail
      (Relation.ReflTransGen.tail
        (Relation.ReflTransGen.tail
          (Relation.ReflTransGen.tail
            (Relation.ReflTransGen.single (Step.alloc _))
            (Step.ins _ (encode_key 1 0) 42 (by decide)))
          (Step.rem _ (encode_key 1 0)))
        (Step.clr _))
      (Step.alloc _))
    (Step.ins _ (encode_key 1 0) 7 (by decide))

/-- C4 amended: once `remove(k)` succeeds on a reachable state, `get`,
`get_mut`, `contains_key` and `remove` keep reporting absence for `k` after
every subsequent protocol-respecting operation sequence that contains no
`clear`, as long as fewer than 2^30 - 1 later remove/release operations hit
that slot index (the 30-bit generation counter has not wrapped back). -/
theorem C4_amended_removed_key_absent (T : Type) :
    ∀ (m : DeferredMap T) (key : Nat) (ops : List (Op T)),
      Reachable m → m.slots.length + ops.length < 2 ^ 32 →
      (m.remove key).1.isSome = true →
      ValidOps (m.remove key).2 ops →
      (∀ op ∈ ops, op.is_clear = false) →
      ops.countP (Op.touches (decode_key key).1) < 2 ^ 30 - 1 →
      (execList (m.remove key).2 ops).get key = none ∧
      (execList (m.remove key).2 ops).get_mut key = none ∧
      (execList (m.remove key).2 ops).contains_key key = false ∧
      ((execList (m.remove key).2 ops).remove key).1 = none := by
  intro m key ops hr hb hsome hvops hcl hcount
  have hlen0 : m.slots.length < 2 ^ 32 := by omega
  have hInv := Reachable_Inv hr hlen0
  have hv : KeyValid m key := by
    by_cases hv : KeyValid m key
    · exact hv
    · rw [DeferredMap.remove_eq_of_invalid m key hv] at hsome
      simp at hsome
  obtain ⟨hlt, hgen, hocc⟩ := hv
  have hv4 : (m.slots.getD (decode_key key).1 (sentinelSlot T)).version % 4 = 3 :=
    (is_occupied_iff _).1 hocc
  have hvlt : (m.slots.getD (decode_key key).1 (sentinelSlot T)).version < 2 ^ 32 :=
    hInv.versions (decode_key key).1
  have hr1 : Reachable (m.remove key).2 :=
    Relation.ReflTransGen.tail hr (Step.rem m key)
  have hmap := DeferredMap.remove_eq_of_valid m key ⟨hlt, hgen, hocc⟩
  have hglt : (decode_key key).2 < 2 ^ 30 := by
    rw [← hgen]
    show (m.slots.getD (decode_key key).1 (sentinelSlot T)).version / 4 < 2 ^ 30
    omega
  have hidx1 : (decode_key key).1 < (m.remove key).2.slots.length := by
    rw [hmap]
    simpa using hlt
  have hb1 : (m.remove key).2.slots.length + ops.length < 2 ^ 32 := by
    rw [hmap]
    simpa using hb
  have hd0 : ∃ d, d ≤ 0 ∧
      ((m.remove key).2.slots.getD (decode_key key).1 (sentinelSlot T)).generation =
        ((decode_key key).2 + 1 + d) % 2 ^ 30 := by
    refine ⟨0, Nat.le_refl 0, ?_⟩
    rw [hmap]
    show ((m.slots.set (decode_key key).1 _).getD (decode_key key).1
      (sentinelSlot T)).generation = ((decode_key key).2 + 1 + 0) % 2 ^ 30
    rw [getD_set_lt _ _ _ _ hlt]
    rw [← hgen]
    show ((m.slots.getD (decode_key key).1 (sentinelSlot T)).version + 1) % 2 ^ 32 / 4 =
      ((m.slots.getD (decode_key key).1 (sentinelSlot T)).version / 4 + 1 + 0) % 2 ^ 30
    omega
  obtain ⟨hfin, d, hdle, hgfin⟩ :=
    gen_trace (decode_key key).1 (decode_key key).2 ops (m.remove key).2 0
      hr1 hb1 hvops hcl hidx1 hd0
  have hne : ((execList (m.remove key).2 ops).slots.getD (decode_key key).1
      (sentinelSlot T)).generation ≠ (decode_key key).2 := by
    rw [hgfin]
    intro he
    omega
  have hnv : ¬ KeyValid (execList (m.remove key).2 ops) key :=
    fun hvk => hne hvk.2.1
  refine ⟨?_, ?_, ?_, ?_⟩
  · rw [DeferredMap.get_eq, if_neg hnv]
  · rw [DeferredMap.get_mut_eq_get, DeferredMap.get_eq, if_neg hnv]
  · show ((execList (m.remove key).2 ops).get key).isSome = false
    rw [DeferredMap.get_eq, if_neg hnv]
    rfl
  · rw [DeferredMap.remove_eq_of_invalid _ key hnv]

/-- C1 counterexample: the slot appended by the very first `allocate_handle`
(from the fresh map, whose free list is empty) is Reserved with generation 0,
not 1 — refuting "generation is at least 1 while a slot is Reserved or
Occupied" on a reachable state. -/
theorem C1_generation_counterexample :
    Reachable ((DeferredMap.new Nat).allocate_handle.2) ∧
    (((DeferredMap.new Nat).allocate_handle.2).slots.getD 1 (sentinelSlot Nat)).is_reserved
      = true ∧
    (((DeferredMap.new Nat).allocate_handle.2).slots.getD 1 (sentinelSlot Nat)).generation
      = 0 :=
  ⟨Relation.ReflTransGen.single (Step.alloc (DeferredMap.new Nat)), by decide, by decide⟩

/-- C1 amended: a slot appended by `allocate_handle` starts in Reserved state
with generation 0 (and the returned handle carries generation 0), and the
generation increment performed by `remove` and `release_handle` adds exactly
one modulo 2^30, without skipping the value 0. -/
theorem C1_generation_amended (T : Type) :
    (∀ m : DeferredMap T, m.slots.length ≤ m.free_head →
      (((m.allocate_handle).2).slots.getD m.slots.length (sentinelSlot T)).is_reserved
        = true ∧
      (((m.allocate_handle).2).slots.getD m.slots.length (sentinelSlot T)).generation = 0 ∧
      handle_generation (m.allocate_handle).1 = 0) ∧
    (∀ (m : DeferredMap T) (key : Nat), KeyValid m key →
      (m.slots.getD (decode_key key).1 (sentinelSlot T)).version < 2 ^ 32 →
      ((m.remove key).2.slots.getD (decode_key key).1 (sentinelSlot T)).generation =
        ((m.slots.getD (decode_key key).1 (sentinelSlot T)).generation + 1) % 2 ^ 30) ∧
    (∀ (m : DeferredMap T) (handle : Nat), HandleOk m handle →
      (m.slots.getD (handle_index handle) (sentinelSlot T)).version < 2 ^ 32 →
      ((m.release_handle handle).slots.getD (handle_index handle)
          (sentinelSlot T)).generation =
        ((m.slots.getD (handle_index handle) (sentinelSlot T)).generation + 1) % 2 ^ 30) := by
  refine ⟨?_, ?_, ?_⟩
  · intro m hge
    rw [DeferredMap.allocate_handle_append m hge]
    refine ⟨?_, ?_, ?_⟩
    · rw [getD_append_len, is_reserved_iff]
      show (1 : Nat) % 4 = 1
      omega
    · rw [getD_append_len]
      show (1 : Nat) / 4 = 0
      omega
    · rw [handle_generation_encode]
      omega
  · intro m key hv hvlt
    have hv4 : (m.slots.getD (decode_key key).1 (sentinelSlot T)).version % 4 = 3 :=
      (is_occupied_iff _).1 hv.2.2
    rw [DeferredMap.remove_eq_of_valid m key hv]
    show ((m.slots.set (decode_key key).1 _).getD (decode_key key).1
      (sentinelSlot T)).generation = _
    rw [getD_set_lt _ _ _ _ hv.1]
    show ((m.slots.getD (decode_key key).1 (sentinelSlot T)).version + 1) % 2 ^ 32 / 4 =
      ((m.slots.getD (decode_key key).1 (sentinelSlot T)).version / 4 + 1) % 2 ^ 30
    omega
  · intro m handle hok hvlt
    have hv4 : (m.slots.getD (handle_index handle) (sentinelSlot T)).version % 4 = 1 :=
      (is_reserved_iff _).1 hok.2.2.2
    rw [DeferredMap.release_handle_eq_getD m handle hok.2.1]
    show ((m.slots.set (handle_index handle) _).getD (handle_index handle)
      (sentinelSlot T)).generation = _
    rw [getD_set_lt _ _ _ _ hok.2.1]
    show ((m.slots.getD (handle_index handle) (sentinelSlot T)).version + 3) % 2 ^ 32 / 4 =
      ((m.slots.getD (handle_index handle) (sentinelSlot T)).version / 4 + 1) % 2 ^ 30
    omega

/-- Closed witness for `C1_generation_amended`: the first allocation of the
fresh map produces a Reserved slot with generation 0. -/
theorem C1_generation_amended_witness :
    (((DeferredMap.new Nat).allocate_handle.2).slots.getD 1 (sentinelSlot Nat)).is_reserved
      = true ∧
    handle_generation ((DeferredMap.new Nat).allocate_handle).1 = 0 := by
  have h := (C1_generation_amended Nat).1 (DeferredMap.new Nat) (by decide)
  exact ⟨h.1, h.2.2⟩

/-- Closed witness for `C4_amended_removed_key_absent`: the empty subsequent
operation sequence after a concrete successful removal. -/
theorem C4_amended_removed_key_absent_witness :
    (execList (((DeferredMap.new Nat).allocate_handle.2.insert (encode_key 1 0) 42).remove
        (encode_key 1 0)).2 []).get (encode_key 1 0) = none := by
  have h := C4_amended_removed_key_absent Nat
    ((DeferredMap.new Nat).allocate_handle.2.insert (encode_key 1 0) 42)
    (encode_key 1 0) []
    (Relation.ReflTransGen.tail (Relation.ReflTransGen.single (Step.alloc _))
      (Step.ins _ (encode_key 1 0) 42 (by decide)))
    (by decide) (by decide) trivial (by simp) (by decide)
  exact h.1

end DeferredMapModel
